import Mathlib

/-!
sg: extraction of gem records from a token stream.

A shallow embedding of `sg.go`.  The program fetches the RubyGems search page,
runs the `golang.org/x/net/html` tokenizer over the body and accumulates one
`Gem` per result item in a map keyed by the gem name (`searchGems`).

Modelling choices:

* The tokenizer is external.  A response body is represented by the list of
  tokens that successive calls of `z.Next()` / `z.Token()` deliver.  The end of
  the list stands for the `ErrorToken` that the tokenizer reports when the
  input is exhausted; an `ErrorToken` inside the list ends the loop as well.
* Go strings are Lean strings.  `len(s) > 0` is `0 < s.length`.
* `map[string]*Gem` is an association list with at most one entry per key.
  The map stores pointers, but the only pointer ever stored is replaced in `q`
  by `new(Gem)` in the same block, so a stored record is never written through
  `q` again.  The loop is therefore given on values (`State`); a second copy
  on addresses (`Mem`) is shown to have it as its image (`view_memLoop`).
* `sort.Sort`, `fmt`, `flag` and `http.Get` are library code: the sort is
  the insertion sort of the library, run through `Len`, `Less` and `Swap`,
  and is also characterised by its contract; the network and the traversal
  order of the map are parameters, and standard output is the list of printed
  texts.
* `int` is 64 bits wide on the supported targets.  The counter `pos` starts at
  1 and grows by one per stored record, so it stays far below `2^63` on every
  stream that can be read; it is modelled as an unbounded integer.
-/

namespace Sg

/-! ## Data model -/

/-- Go: `const rubygemsRoot`. -/
def rubygemsRoot : String := "http://rubygems.org"

/-- Go: `type Gem struct`. -/
structure Gem where
  name : String
  url : String
  version : String
  description : String
  position : Int
deriving DecidableEq, Repr

/-- Go: `new(Gem)`, the zero value of the struct. -/
def newGem : Gem :=
  { name := "", url := "", version := "", description := "", position := 0 }

/-- Token kinds of `golang.org/x/net/html` (`html.TokenType`). -/
inductive TokenType where
  | ErrorToken
  | TextToken
  | StartTagToken
  | EndTagToken
  | SelfClosingTagToken
  | CommentToken
  | DoctypeToken
deriving DecidableEq, Repr

/-- Library type `html.Attribute`. -/
structure Attribute where
  Namespace : String
  Key : String
  Val : String
deriving DecidableEq, Repr

/-- Library type `html.Token`; the field `Type` is called `Typ` here and the
field `DataAtom`, which the program never reads, is left out. -/
structure Token where
  Typ : TokenType
  Data : String
  Attr : List Attribute
deriving DecidableEq, Repr

/-- The result collection `map[string]*Gem`, as an association list. -/
abbrev GemMap := List (String × Gem)

/-- Go: `make(map[string]*Gem)`. -/
def GemMap.empty : GemMap := []

/-- Go: `gems[k] = v`; an existing entry under `k` is replaced. -/
def GemMap.store (k : String) (v : Gem) (m : GemMap) : GemMap :=
  (k, v) :: m.filter (fun e => decide (e.1 ≠ k))

/-- Go: `gems[k]`, with `none` for an absent key. -/
def GemMap.find (k : String) : GemMap → Option Gem
  | [] => none
  | e :: m => if e.1 = k then some e.2 else GemMap.find k m

/-- Go: `len(gems)`. -/
def GemMap.size (m : GemMap) : Nat := m.length

/-! ## Token classifier -/

/-- Go: `itHasClass`. -/
def itHasClass (t : Token) (cls : String) : Bool :=
  t.Attr.foldl (fun hasClass linkAttr =>
    if linkAttr.Key = "class" ∧ linkAttr.Val = cls then true else hasClass) false

/-- Go: `isGem`. -/
def isGem (t : Token) : Bool := itHasClass t "gems__gem"

/-- Go: `isGemAnchor`. -/
def isGemAnchor (t : Token) : Bool := decide (t.Data = "a") && isGem t

/-- Go: `isGemName`. -/
def isGemName (t : Token) : Bool := itHasClass t "gems__gem__name"

/-- Go: `isGemDesc`. -/
def isGemDesc (t : Token) : Bool := itHasClass t "gems__gem__desc"

/-- Go: `isGemVersion`. -/
def isGemVersion (t : Token) : Bool := itHasClass t "gems__gem__version"

/-- Go: `getHref`. -/
def getHref (t : Token) : String :=
  t.Attr.foldl (fun href a => if a.Key = "href" then a.Val else href) ""

/-! ## `strings.TrimSpace` -/

/-- Go: `unicode.IsSpace`, the code points with the White_Space property. -/
def isSpace (c : Char) : Bool :=
  let n := c.toNat
  n = 0x09 || n = 0x0A || n = 0x0B || n = 0x0C || n = 0x0D || n = 0x20 ||
  n = 0x85 || n = 0xA0 || n = 0x1680 || (0x2000 ≤ n && n ≤ 0x200A) ||
  n = 0x2028 || n = 0x2029 || n = 0x202F || n = 0x205F || n = 0x3000

/-- Go: `strings.TrimSpace`, cutting white space at the left, then at the right. -/
def TrimSpace (s : String) : String :=
  ⟨((s.data.dropWhile isSpace).reverse.dropWhile isSpace).reverse⟩

/-! ## The accumulator loop of `searchGems` -/

/-- The local variables of `searchGems` that live across loop iterations. -/
structure State where
  gems : GemMap
  pos : Int
  q : Gem
  saveName : Bool
  saveVer : Bool
  saveDesc : Bool
deriving DecidableEq, Repr

/-- The variables as initialised before the loop (lines 104 and 118 to 123). -/
def initState : State :=
  { gems := GemMap.empty, pos := 1, q := newGem,
    saveName := false, saveVer := false, saveDesc := false }

/-- Lines 135 to 142: `if isGem(t) { if len(q.name) > 0 { ... } }`. -/
def storeGem (s : State) (t : Token) : State :=
  if isGem t then
    if 0 < s.q.name.length then
      { s with
        gems := GemMap.store s.q.name { s.q with position := s.pos } s.gems
        q := newGem
        pos := s.pos + 1 }
    else s
  else s

/-- Lines 144 to 147: `if isGemAnchor(t) { q.url = rubygemsRoot + getHref(t) }`. -/
def setUrl (s : State) (t : Token) : State :=
  if isGemAnchor t then
    { s with q := { s.q with url := rubygemsRoot ++ getHref t } }
  else s

/-- Lines 149 to 151: the three flags are overwritten. -/
def setFlags (s : State) (t : Token) : State :=
  { s with saveName := isGemName t, saveVer := isGemVersion t, saveDesc := isGemDesc t }

/-- The `case tt == html.StartTagToken` branch. -/
def onStartTag (s : State) (t : Token) : State :=
  setFlags (setUrl (storeGem s t) t) t

/-- The `case tt == html.TextToken` branch: three consecutive `if` blocks. -/
def onText (s : State) (t : Token) : State :=
  let s1 := if s.saveName then
      { s with q := { s.q with name := TrimSpace t.Data }, saveName := false } else s
  let s2 := if s1.saveVer then
      { s1 with q := { s1.q with version := TrimSpace t.Data }, saveVer := false } else s1
  if s2.saveDesc then
    { s2 with q := { s2.q with description := TrimSpace t.Data }, saveDesc := false } else s2

/-- One iteration of the loop for a token that is not `ErrorToken`: the
`switch` has a branch for start tags and one for text, nothing else. -/
def step (s : State) (t : Token) : State :=
  match t.Typ with
  | .StartTagToken => onStartTag s t
  | .TextToken => onText s t
  | _ => s

/-- The `for` loop: the state in which the loop returns, at the first
`ErrorToken` or at the end of the token list. -/
def loop : State → List Token → State
  | s, [] => s
  | s, t :: ts => if t.Typ = .ErrorToken then s else loop (step s t) ts

/-- Go: `searchGems`.  The argument is the outcome of `http.Get`: `none` for a
transport error, `some ts` for a body that tokenizes to `ts`.  The result is
the returned map together with the lines printed on standard output. -/
def searchGems (resp : Option (List Token)) : GemMap × List String :=
  match resp with
  | none => (GemMap.empty, ["ERROR: Failed to reach RubyGems"])
  | some ts => ((loop initState ts).gems, [])

/-! ## Vocabulary of the specification -/

/-- A boundary marker: a start tag that carries the class `gems__gem`. -/
def isBoundary (t : Token) : Bool :=
  decide (t.Typ = .StartTagToken) && isGem t

/-- Construction of a start tag from its name and `(key, value)` attributes. -/
def startTag (name : String) (attrs : List (String × String)) : Token :=
  { Typ := .StartTagToken, Data := name,
    Attr := attrs.map (fun kv => { Namespace := "", Key := kv.1, Val := kv.2 }) }

/-- Construction of a text token. -/
def textTok (d : String) : Token := { Typ := .TextToken, Data := d, Attr := [] }

/-- Construction of an end tag. -/
def endTag (name : String) : Token := { Typ := .EndTagToken, Data := name, Attr := [] }

/-- The token list cut just after its last boundary marker (empty when the
list holds no boundary marker). -/
def uptoLastBoundary : List Token → List Token
  | [] => []
  | t :: ts =>
    if ts.any isBoundary then t :: uptoLastBoundary ts
    else if isBoundary t then [t] else []

/-- Every entry of the collection is stored under the name of its record, and
that name is not empty. -/
def WellKeyed (m : GemMap) : Prop :=
  ∀ e ∈ m, e.2.name = e.1 ∧ e.1 ≠ ""

/-- The record that line 138 stores while token `t` is processed in state `s`:
the current shell with its position, when `t` is a boundary marker and the
shell has a name; nothing otherwise. -/
def storedAt (s : State) (t : Token) : List Gem :=
  if isBoundary t = true ∧ 0 < s.q.name.length then [{ s.q with position := s.pos }] else []

/-- The records stored by the loop, in the order in which they are stored. -/
def finalized : State → List Token → List Gem
  | _, [] => []
  | s, t :: ts =>
    if t.Typ = .ErrorToken then [] else storedAt s t ++ finalized (step s t) ts

/-- The assignments `gems[g.name] = g` carried out for a list of records. -/
def storeAll (m : GemMap) (log : List Gem) : GemMap :=
  log.foldl (fun acc g => GemMap.store g.name g acc) m

/-- A group: a boundary marker followed by tokens none of which is a boundary
marker or an `ErrorToken`. -/
def isGroup : List Token → Bool
  | [] => false
  | b :: rest =>
    isBoundary b && rest.all (fun t => !isBoundary t && decide (t.Typ ≠ .ErrorToken))

/-- The shell in progress when the loop has read the groups up to and including
the one of index `i` (counted from 0). -/
def recordAfter (groups : List (List Token)) (i : Nat) : Gem :=
  (loop initState (groups.take (i + 1)).flatten).q

/-- The tokens for which the `switch` has no branch and which do not end the
loop: end tags, self-closing tags, comments and doctypes. -/
def isInert (t : Token) : Bool :=
  decide (t.Typ = .EndTagToken) || decide (t.Typ = .SelfClosingTagToken) ||
  decide (t.Typ = .CommentToken) || decide (t.Typ = .DoctypeToken)

/-! ## Ordering and output (`byPosition`, `searchCommand`, `main`) -/

/-- Go: `const rubygemsSearch`. -/
def rubygemsSearch : String := "http://rubygems.org/search?utf8=%E2%9C%93&query="

/-- Go: `byPosition.Len`. -/
def byPosition.Len (a : List Gem) : Nat := a.length

/-- Go: `byPosition.Swap`. -/
def byPosition.Swap (a : List Gem) (i j : Fin a.length) : List Gem :=
  (a.set i (a.get j)).set j (a.get i)

/-- Go: `byPosition.Less`, with its three `return` statements. -/
def byPosition.Less (a : List Gem) (i j : Fin a.length) : Bool :=
  if (a.get i).position < (a.get j).position then true
  else if (a.get i).position > (a.get j).position then false
  else decide ((a.get i).position < (a.get j).position)

/-- The postcondition of the library function `sort.Sort` on a `byPosition`
value: the elements are rearranged so that no element is `Less` than one that
stands before it.  The library does not promise stability. -/
def IsSortOutput (a out : List Gem) : Prop :=
  out.Perm a ∧ ∀ i j : Fin out.length, i < j → byPosition.Less out j i = false

/-- The inner loop of the library's `insertionSort`, run on a `byPosition`
value: `for j := i; j > 0 && data.Less(j, j-1); j-- { data.Swap(j, j-1) }`. -/
def sinkDown : List Gem → Nat → List Gem
  | a, 0 => a
  | a, j + 1 =>
    if h : j + 1 < a.length then
      if byPosition.Less a ⟨j + 1, h⟩ ⟨j, Nat.lt_of_succ_lt h⟩ then
        sinkDown (byPosition.Swap a ⟨j + 1, h⟩ ⟨j, Nat.lt_of_succ_lt h⟩) j
      else a
    else a

/-- Library: `sort.Sort(byPosition(a))`, as the insertion sort that the library
performs through the three methods of the interface:
`n := data.Len(); for i := 1; i < n; i++ { ... }` with the inner loop
`sinkDown`.  For long slices the library switches to other strategies, which
meet the same postcondition `IsSortOutput`. -/
def sortSort (a : List Gem) : List Gem :=
  (List.range' 1 (byPosition.Len a - 1)).foldl sinkDown a

/-- The effect of `sinkDown` on the sorted part of the slice, read from its
end: `x` moves past every record whose position is greater. -/
def sinkInto (x : Gem) : List Gem → List Gem
  | [] => [x]
  | y :: ys => if x.position < y.position then y :: sinkInto x ys else x :: y :: ys

/-- The slices that the loop `for _, v := range gemsMap` can build: Go visits
the entries of a map in an unspecified order, each entry once. -/
def RangeOrder (order : GemMap → List Gem) : Prop :=
  ∀ m : GemMap, (order m).Perm (m.map Prod.snd)

/-- What one run of the program does that can be observed: the texts of the
print calls in order, each without the newline that ends it, the exit status,
and the urls passed to `http.Get`. -/
structure Outcome where
  stdout : List String
  exitCode : Nat
  requests : List String
deriving DecidableEq, Repr

/-- The bytes on standard output: every printed text followed by a newline. -/
def render (lines : List String) : String :=
  String.join (lines.map (fun l => l ++ "\n"))

/-- Go: `fmt.Println("Found", len(gems), "gems:")`. -/
def foundLine (n : Nat) : String := "Found " ++ toString n ++ " gems:"

/-- Go: `fmt.Printf("%s %s %s \n", g.name, g.version, g.url)`. -/
def recordLine (g : Gem) : String := g.name ++ " " ++ g.version ++ " " ++ g.url ++ " "

/-- Go: `searchCommand`.  `fetch` stands for `http.Get` followed by the
tokenizer, `order` for the order in which `range` visits the map. -/
def searchCommand (fetch : String → Option (List Token)) (order : GemMap → List Gem)
    (searchString : String) : Outcome :=
  let res := searchGems (fetch (rubygemsSearch ++ searchString))
  let gems := order res.1
  { stdout := res.2 ++ foundLine (byPosition.Len gems) :: (sortSort gems).map recordLine
    exitCode := 0
    requests := [rubygemsSearch ++ searchString] }

/-- Go: `flag.Usage` as set in `main`; `flag.PrintDefaults` prints nothing
because no flag is defined. -/
def usageLines (prog : String) : List String :=
  ["Usage of " ++ prog ++ ":", "    sg search gem"]

/-- Go: `main`.  `prog` is `os.Args[0]` and `args` is `flag.Args()`, the
arguments that `flag.Parse` leaves.  When the first argument is not `search`
the function returns, which ends the process with status 0. -/
def main (prog : String) (args : List String) (fetch : String → Option (List Token))
    (order : GemMap → List Gem) : Outcome :=
  if args.length < 2 then
    { stdout := usageLines prog, exitCode := 1, requests := [] }
  else if args.getD 0 "" = "search" then
    searchCommand fetch order ("+".intercalate (args.drop 1))
  else
    { stdout := [], exitCode := 0, requests := [] }

/-! ## The loop with the records held behind pointers

`gems` is a `map[string]*Gem` and `q` a `*Gem`.  The definitions below keep the
records in a store indexed by addresses, as the program does, so that what a
write through `q` can reach is explicit.  `view` reads such a state as a
`State`; the loop on `State` is shown further down to be its image. -/

/-- The map `map[string]*Gem`: names bound to addresses. -/
abbrev PtrMap := List (String × Nat)

/-- Go: `gems[k] = a` for an address `a`. -/
def PtrMap.store (k : String) (a : Nat) (m : PtrMap) : PtrMap :=
  (k, a) :: m.filter (fun e => decide (e.1 ≠ k))

/-- The local variables of `searchGems` together with the allocated records:
`heap a` is the record at address `a`, `next` the first unused address. -/
structure Mem where
  heap : Nat → Gem
  next : Nat
  gems : PtrMap
  pos : Int
  q : Nat
  saveName : Bool
  saveVer : Bool
  saveDesc : Bool

/-- A write to the record at address `a`. -/
def heapSet (h : Nat → Gem) (a : Nat) (g : Gem) : Nat → Gem :=
  fun x => if x = a then g else h x

/-- The variables before the loop: `q := new(Gem)` is the record at address 0. -/
def memInit : Mem :=
  { heap := fun _ => newGem, next := 1, gems := [], pos := 1, q := 0,
    saveName := false, saveVer := false, saveDesc := false }

/-- Lines 135 to 142 on addresses: `q.position = pos; gems[q.name] = q;
q = new(Gem); pos = pos + 1`. -/
def memStoreGem (s : Mem) (t : Token) : Mem :=
  if isGem t then
    if 0 < (s.heap s.q).name.length then
      { s with
        heap := heapSet (heapSet s.heap s.q { s.heap s.q with position := s.pos })
          s.next newGem
        gems := PtrMap.store (s.heap s.q).name s.q s.gems
        q := s.next
        next := s.next + 1
        pos := s.pos + 1 }
    else s
  else s

/-- Lines 144 to 147 on addresses: `q.url = rubygemsRoot + href`. -/
def memSetUrl (s : Mem) (t : Token) : Mem :=
  if isGemAnchor t then
    { s with heap := heapSet s.heap s.q { s.heap s.q with url := rubygemsRoot ++ getHref t } }
  else s

/-- Lines 149 to 151 on addresses. -/
def memSetFlags (s : Mem) (t : Token) : Mem :=
  { s with saveName := isGemName t, saveVer := isGemVersion t, saveDesc := isGemDesc t }

/-- The start-tag branch on addresses. -/
def memOnStartTag (s : Mem) (t : Token) : Mem :=
  memSetFlags (memSetUrl (memStoreGem s t) t) t

/-- The text branch on addresses: each assignment writes through `q`. -/
def memOnText (s : Mem) (t : Token) : Mem :=
  let s1 := if s.saveName then
      { s with heap := heapSet s.heap s.q { s.heap s.q with name := TrimSpace t.Data },
               saveName := false } else s
  let s2 := if s1.saveVer then
      { s1 with heap := heapSet s1.heap s1.q { s1.heap s1.q with version := TrimSpace t.Data },
                saveVer := false } else s1
  if s2.saveDesc then
    { s2 with heap := heapSet s2.heap s2.q
                { s2.heap s2.q with description := TrimSpace t.Data },
              saveDesc := false } else s2

/-- One iteration of the loop on addresses. -/
def memStep (s : Mem) (t : Token) : Mem :=
  match t.Typ with
  | .StartTagToken => memOnStartTag s t
  | .TextToken => memOnText s t
  | _ => s

/-- The loop on addresses. -/
def memLoop : Mem → List Token → Mem
  | s, [] => s
  | s, t :: ts => if t.Typ = .ErrorToken then s else memLoop (memStep s t) ts

/-- The state with every pointer replaced by the record it points to. -/
def view (s : Mem) : State :=
  { gems := s.gems.map (fun e => (e.1, s.heap e.2)), pos := s.pos, q := s.heap s.q,
    saveName := s.saveName, saveVer := s.saveVer, saveDesc := s.saveDesc }

/-- The current shell is allocated and is not bound in the map, and every
address in the map is allocated. -/
def MemInv (s : Mem) : Prop :=
  s.q < s.next ∧ ∀ e ∈ s.gems, e.2 < s.next ∧ e.2 ≠ s.q

/-! ## Sample data -/

/-- A state in which a shell named `foo` is in progress and the counter is 3. -/
def sampleNamed : State :=
  { gems := [("old", { name := "old", url := "", version := "0.1", description := "",
                       position := 2 })],
    pos := 3,
    q := { name := "foo", url := "http://rubygems.org/gems/foo", version := "1.0",
           description := "d", position := 0 },
    saveName := false, saveVer := true, saveDesc := false }

/-- The state of `sampleNamed` with the three flags replaced. -/
def withFlags (s : State) (n v d : Bool) : State :=
  { s with saveName := n, saveVer := v, saveDesc := d }

/-- A boundary marker that is an anchor: `<a class="gems__gem" href="/gems/bar">`. -/
def anchorBar : Token := startTag "a" [("class", "gems__gem"), ("href", "/gems/bar")]

/-- A boundary marker that is not an anchor: `<div class="gems__gem">`. -/
def divGem : Token := startTag "div" [("class", "gems__gem")]

/-- The name marker `<h2 class="gems__gem__name">`. -/
def nameMark : Token := startTag "h2" [("class", "gems__gem__name")]

/-- The version marker `<span class="gems__gem__version">`. -/
def verMark : Token := startTag "span" [("class", "gems__gem__version")]

/-- The description marker `<p class="gems__gem__desc">`. -/
def descMark : Token := startTag "p" [("class", "gems__gem__desc")]

/-- A self-closing tag `<br/>`. -/
def brTag : Token := { Typ := .SelfClosingTagToken, Data := "br", Attr := [] }

/-- An anchor boundary marker `<a class="gems__gem" href="/gems/foo">`. -/
def anchorFoo : Token := startTag "a" [("class", "gems__gem"), ("href", "/gems/foo")]

/-- Two groups whose records are both called `foo`, and a closing marker. -/
def collidingStream : List Token :=
  [anchorFoo, nameMark, textTok "foo", verMark, textTok "1.0",
   anchorBar, nameMark, textTok "foo", verMark, textTok "2.0",
   divGem]

/-- Three groups with the names `foo`, `bar` and `baz`. -/
def threeGroups : List (List Token) :=
  [[anchorFoo, nameMark, textTok "foo", endTag "h2", verMark, textTok "1.0"],
   [anchorBar, nameMark, textTok " bar ", descMark, textTok "a bar"],
   [divGem, verMark, textTok "0.3", nameMark, textTok "baz"]]

/-- A comment token. -/
def commentTok : Token := { Typ := .CommentToken, Data := " result ", Attr := [] }

/-- A stream with one complete group, interleaved with tokens the loop skips. -/
def noisyStream : List Token :=
  [commentTok, anchorFoo, brTag, nameMark, commentTok, textTok "foo", endTag "h2",
   verMark, endTag "span", textTok "1.0", divGem, endTag "div"]

/-- The end-to-end scenario: item `foo` 1.0, then item `bar` 2.0, then the end
of the stream. -/
def scenarioStream : List Token :=
  [anchorFoo, nameMark, textTok "foo", verMark, textTok "1.0",
   anchorBar, nameMark, textTok "bar", verMark, textTok "2.0"]

/-- An iteration order: the entries as they stand in the association list. -/
def listOrder (m : GemMap) : List Gem := m.map Prod.snd

/-- Another iteration order: the entries from last to first. -/
def reverseOrder (m : GemMap) : List Gem := (m.map Prod.snd).reverse

/-- A network on which every request returns the scenario page. -/
def scenarioFetch (_ : String) : Option (List Token) := some scenarioStream

/-- A network on which every request fails. -/
def failingFetch (_ : String) : Option (List Token) := none

/-! ## Basic facts -/

theorem length_pos_iff (x : String) : 0 < x.length ↔ x ≠ "" := by
  rcases x with ⟨l⟩
  cases l with
  | nil => simp [String.length]
  | cons c cs =>
    simp [String.length]
    intro h
    have := congrArg String.data h
    simp at this

theorem step_startTag (s : State) (t : Token) (h : t.Typ = .StartTagToken) :
    step s t = onStartTag s t := by
  simp [step, h]

theorem step_text (s : State) (t : Token) (h : t.Typ = .TextToken) :
    step s t = onText s t := by
  simp [step, h]

theorem step_other (s : State) (t : Token) (h1 : t.Typ ≠ .StartTagToken)
    (h2 : t.Typ ≠ .TextToken) : step s t = s := by
  unfold step
  split <;> simp_all

theorem isBoundary_iff (t : Token) :
    isBoundary t = true ↔ t.Typ = .StartTagToken ∧ isGem t = true := by
  simp [isBoundary]

theorem storeGem_named (s : State) (t : Token) (hg : isGem t = true) (hn : s.q.name ≠ "") :
    storeGem s t = { s with
      gems := GemMap.store s.q.name { s.q with position := s.pos } s.gems
      q := newGem
      pos := s.pos + 1 } := by
  have := (length_pos_iff s.q.name).2 hn
  simp [storeGem, hg, this]

theorem storeGem_unnamed (s : State) (t : Token) (hn : s.q.name = "") :
    storeGem s t = s := by
  have : ¬ 0 < s.q.name.length := by rw [length_pos_iff]; simpa using hn
  simp [storeGem, this]

theorem storeGem_not_gem (s : State) (t : Token) (hg : isGem t = false) :
    storeGem s t = s := by
  simp [storeGem, hg]

/-! ## `strings.TrimSpace` removes exactly the surrounding white space -/

theorem trim_core_head (l : List Char) (c : Char)
    (h : (((l.dropWhile isSpace).reverse.dropWhile isSpace).reverse).head? = some c) :
    isSpace c = false := by
  have e := List.takeWhile_append_dropWhile isSpace (l.dropWhile isSpace).reverse
  have e2 := congrArg List.reverse e
  simp only [List.reverse_append, List.reverse_reverse] at e2
  have h3 := List.head?_dropWhile_not isSpace l
  rw [← e2, List.head?_append, h] at h3
  simpa using h3

theorem trim_core_last (l : List Char) (c : Char)
    (h : (((l.dropWhile isSpace).reverse.dropWhile isSpace).reverse).getLast? = some c) :
    isSpace c = false := by
  rw [List.getLast?_reverse] at h
  have h3 := List.head?_dropWhile_not isSpace (l.dropWhile isSpace).reverse
  rw [h] at h3
  simpa using h3

theorem trim_core_split (l : List Char) :
    l = l.takeWhile isSpace
        ++ ((l.dropWhile isSpace).reverse.dropWhile isSpace).reverse
        ++ ((l.dropWhile isSpace).reverse.takeWhile isSpace).reverse := by
  have e := List.takeWhile_append_dropWhile isSpace (l.dropWhile isSpace).reverse
  have e2 := congrArg List.reverse e
  simp only [List.reverse_append, List.reverse_reverse] at e2
  rw [List.append_assoc, e2, List.takeWhile_append_dropWhile]

/-- The text that `strings.TrimSpace` returns is the argument without a left
part and a right part that consist of white space only, and it neither starts
nor ends with white space. -/
theorem TrimSpace_spec (d : String) :
    (∃ l r : List Char, (∀ c ∈ l, isSpace c = true) ∧ (∀ c ∈ r, isSpace c = true) ∧
      d.data = l ++ (TrimSpace d).data ++ r) ∧
    (∀ c, (TrimSpace d).data.head? = some c → isSpace c = false) ∧
    (∀ c, (TrimSpace d).data.getLast? = some c → isSpace c = false) := by
  refine ⟨⟨d.data.takeWhile isSpace,
    ((d.data.dropWhile isSpace).reverse.takeWhile isSpace).reverse, ?_, ?_, ?_⟩, ?_, ?_⟩
  · intro c hc
    exact List.mem_takeWhile_imp hc
  · intro c hc
    exact List.mem_takeWhile_imp (List.mem_reverse.1 hc)
  · exact trim_core_split d.data
  · intro c hc
    exact trim_core_head d.data c hc
  · intro c hc
    exact trim_core_last d.data c hc

/-! ## C1: what a boundary marker does -/

/-- C1: when a boundary-marker start tag is processed and the current shell has
a non-empty name, the shell is stored under its name with position equal to the
counter, the counter grows by exactly one and the current shell becomes
`new(Gem)` before the href of the marker is applied; when the name is empty the
collection and the counter are unchanged.  The counter starts at 1. -/
theorem boundary_marker_finalizes (s : State) (t : Token) (ht : isBoundary t = true) :
    (s.q.name ≠ "" →
      (step s t).gems = GemMap.store s.q.name { s.q with position := s.pos } s.gems ∧
      GemMap.find s.q.name (step s t).gems = some { s.q with position := s.pos } ∧
      (step s t).pos = s.pos + 1 ∧
      (storeGem s t).q = newGem ∧
      (step s t).q = (if isGemAnchor t = true
        then { newGem with url := rubygemsRoot ++ getHref t } else newGem)) ∧
    (s.q.name = "" → (step s t).gems = s.gems ∧ (step s t).pos = s.pos) ∧
    initState.pos = 1 := by
  obtain ⟨hty, hg⟩ := (isBoundary_iff t).1 ht
  refine ⟨fun hn => ?_, fun hn => ?_, rfl⟩
  · rw [step_startTag s t hty]
    simp only [onStartTag, setFlags, storeGem_named s t hg hn]
    refine ⟨?_, ?_, ?_, trivial, ?_⟩
    · unfold setUrl; split <;> rfl
    · have : (setUrl { s with
          gems := GemMap.store s.q.name { s.q with position := s.pos } s.gems
          q := newGem
          pos := s.pos + 1 } t).gems
          = GemMap.store s.q.name { s.q with position := s.pos } s.gems := by
        unfold setUrl; split <;> rfl
      rw [this]
      simp [GemMap.store, GemMap.find]
    · unfold setUrl; split <;> rfl
    · unfold setUrl; split <;> rfl
  · rw [step_startTag s t hty]
    simp only [onStartTag, setFlags, storeGem_unnamed s t hn]
    constructor <;> (unfold setUrl; split <;> rfl)

/-- C1 at a concrete state: the shell `foo` is stored with position 3. -/
theorem boundary_marker_finalizes_witness :
    isBoundary anchorBar = true ∧
    (step sampleNamed anchorBar).gems
      = GemMap.store "foo" { sampleNamed.q with position := 3 } sampleNamed.gems ∧
    (step sampleNamed anchorBar).pos = 4 :=
  ⟨by decide,
   ((boundary_marker_finalizes sampleNamed anchorBar (by decide)).1 (by decide)).1,
   ((boundary_marker_finalizes sampleNamed anchorBar (by decide)).1 (by decide)).2.2.1⟩

/-! ## C6 and C7: text tokens -/

/-- C6: a text token processed while exactly one flag is armed sets that field
of the current shell to the token data with the surrounding white space
removed, leaves every other component of the state as it was and disarms the
flag. -/
theorem text_fills_armed_field (s : State) (t : Token) (ht : t.Typ = .TextToken) :
    (s.saveName = true → s.saveVer = false → s.saveDesc = false →
      step s t = { s with q := { s.q with name := TrimSpace t.Data }, saveName := false }) ∧
    (s.saveName = false → s.saveVer = true → s.saveDesc = false →
      step s t = { s with q := { s.q with version := TrimSpace t.Data }, saveVer := false }) ∧
    (s.saveName = false → s.saveVer = false → s.saveDesc = true →
      step s t = { s with q := { s.q with description := TrimSpace t.Data },
                          saveDesc := false }) ∧
    ((∃ l r : List Char, (∀ c ∈ l, isSpace c = true) ∧ (∀ c ∈ r, isSpace c = true) ∧
        t.Data.data = l ++ (TrimSpace t.Data).data ++ r) ∧
      (∀ c, (TrimSpace t.Data).data.head? = some c → isSpace c = false) ∧
      (∀ c, (TrimSpace t.Data).data.getLast? = some c → isSpace c = false)) := by
  refine ⟨?_, ?_, ?_, TrimSpace_spec t.Data⟩
  · intro h1 h2 h3
    rw [step_text s t ht]
    simp [onText, h1, h2, h3]
  · intro h1 h2 h3
    rw [step_text s t ht]
    simp [onText, h1, h2, h3]
  · intro h1 h2 h3
    rw [step_text s t ht]
    simp [onText, h1, h2, h3]

/-- C6 at a concrete state: the version flag alone is armed. -/
theorem text_fills_armed_field_witness :
    (textTok " \t2.0\n ").Typ = .TextToken ∧
    step sampleNamed (textTok " \t2.0\n ")
      = { sampleNamed with q := { sampleNamed.q with version := "2.0" }, saveVer := false } :=
  ⟨rfl, by
    have h := (text_fills_armed_field sampleNamed (textTok " \t2.0\n ") rfl).2.1 rfl rfl rfl
    rw [h]
    decide⟩

/-- The loop over tokens that are neither start tags nor `ErrorToken`, begun
with no flag armed, ends in the state in which it began. -/
theorem loop_idle (ts : List Token) (s : State)
    (hts : ∀ t ∈ ts, t.Typ ≠ .StartTagToken)
    (h1 : s.saveName = false) (h2 : s.saveVer = false) (h3 : s.saveDesc = false) :
    loop s ts = s := by
  induction ts with
  | nil => rfl
  | cons t ts ih =>
    have hstep : step s t = s := by
      by_cases hx : t.Typ = .TextToken
      · rw [step_text s t hx]
        simp [onText, h1, h2, h3]
      · exact step_other s t (hts t (List.mem_cons_self _ _)) hx
    simp only [loop]
    split
    · rfl
    · rw [hstep]
      exact ih (fun u hu => hts u (List.mem_cons_of_mem _ hu))

theorem onText_flags (s : State) (t : Token) :
    (onText s t).saveName = false ∧ (onText s t).saveVer = false ∧
    (onText s t).saveDesc = false := by
  rcases s with ⟨g, p, q, n, v, d⟩
  cases n <;> cases v <;> cases d <;> simp [onText]

/-- C7: after a text token all three flags are disarmed; a text token that
arrives while no flag is armed changes nothing; hence of the tokens that follow
a start tag and its first text token, up to the next start tag, none has any
effect. -/
theorem text_consumed_once (s : State) (x : Token) (hx : x.Typ = .TextToken) :
    ((step s x).saveName = false ∧ (step s x).saveVer = false ∧
      (step s x).saveDesc = false) ∧
    (s.saveName = false → s.saveVer = false → s.saveDesc = false → step s x = s) ∧
    (∀ (m : Token) (rest : List Token), m.Typ = .StartTagToken →
      (∀ t ∈ rest, t.Typ ≠ .StartTagToken) →
      loop s (m :: x :: rest) = loop s [m, x]) := by
  refine ⟨?_, ?_, ?_⟩
  · rw [step_text s x hx]
    exact onText_flags s x
  · intro h1 h2 h3
    rw [step_text s x hx]
    simp [onText, h1, h2, h3]
  · intro m rest hm hrest
    have hflags := onText_flags (step s m) x
    simp only [loop, hm, hx]
    simp only [reduceCtorEq, if_false]
    rw [step_text (step s m) x hx]
    exact loop_idle rest _ hrest hflags.1 hflags.2.1 hflags.2.2

/-- C7 at a concrete stream: the second and third text do not reach the name. -/
theorem text_consumed_once_witness :
    (textTok "foo").Typ = .TextToken ∧
    (loop initState [nameMark, textTok "foo", textTok "bar", endTag "h2", textTok "baz"]).q.name
      = "foo" :=
  ⟨rfl, by
    rw [(text_consumed_once initState (textTok "foo") rfl).2.2 nameMark
      [textTok "bar", endTag "h2", textTok "baz"] rfl (by decide)]
    decide⟩

/-! ## C8: which tokens disarm a flag -/

theorem onText_keeps_unarmed (s : State) (x : Token) :
    (s.saveName = false → (onText s x).q.name = s.q.name) ∧
    (s.saveVer = false → (onText s x).q.version = s.q.version) ∧
    (s.saveDesc = false → (onText s x).q.description = s.q.description) := by
  rcases s with ⟨g, p, q, n, v, d⟩
  cases n <;> cases v <;> cases d <;> simp [onText]

theorem onStartTag_flags (s : State) (t : Token) :
    (onStartTag s t).saveName = isGemName t ∧ (onStartTag s t).saveVer = isGemVersion t ∧
    (onStartTag s t).saveDesc = isGemDesc t := by
  simp [onStartTag, setFlags]

/-- C8 fails for end tags and self-closing tags: after the name marker, an end
tag and a self-closing tag leave the name flag armed, and the text that follows
them is assigned to the name. -/
theorem end_tag_leaves_flag_armed :
    (loop initState [nameMark]).saveName = true ∧
    isGemName (endTag "h2") = false ∧ isGemName brTag = false ∧
    (loop initState [nameMark, endTag "h2"]).saveName = true ∧
    (loop initState [nameMark, brTag]).saveName = true ∧
    (loop initState [nameMark, endTag "h2", textTok "foo"]).q.name = "foo" ∧
    (loop initState [nameMark, brTag, textTok "foo"]).q.name = "foo" := by
  decide

/-- C8, amended: a start tag that does not carry a field marker disarms the
flag of that field, and a text token after it does not reach the field; an end
tag or a self-closing tag changes nothing, so the flag stays armed. -/
theorem start_tag_disarms_flag (s : State) (t : Token) :
    (t.Typ = .StartTagToken →
      (isGemName t = false → (step s t).saveName = false ∧
        ∀ x : Token, x.Typ = .TextToken → (step (step s t) x).q.name = (step s t).q.name) ∧
      (isGemVersion t = false → (step s t).saveVer = false ∧
        ∀ x : Token, x.Typ = .TextToken →
          (step (step s t) x).q.version = (step s t).q.version) ∧
      (isGemDesc t = false → (step s t).saveDesc = false ∧
        ∀ x : Token, x.Typ = .TextToken →
          (step (step s t) x).q.description = (step s t).q.description)) ∧
    (t.Typ = .EndTagToken ∨ t.Typ = .SelfClosingTagToken → step s t = s) := by
  constructor
  · intro ht
    rw [step_startTag s t ht]
    obtain ⟨f1, f2, f3⟩ := onStartTag_flags s t
    refine ⟨fun h => ?_, fun h => ?_, fun h => ?_⟩
    · refine ⟨by rw [f1, h], fun x hx => ?_⟩
      rw [step_text _ x hx]
      exact (onText_keeps_unarmed _ x).1 (by rw [f1, h])
    · refine ⟨by rw [f2, h], fun x hx => ?_⟩
      rw [step_text _ x hx]
      exact (onText_keeps_unarmed _ x).2.1 (by rw [f2, h])
    · refine ⟨by rw [f3, h], fun x hx => ?_⟩
      rw [step_text _ x hx]
      exact (onText_keeps_unarmed _ x).2.2 (by rw [f3, h])
  · intro h
    apply step_other
    · rcases h with h | h <;> simp [h]
    · rcases h with h | h <;> simp [h]

/-- C8, amended, at a concrete state: the version marker disarms the name flag. -/
theorem start_tag_disarms_flag_witness :
    verMark.Typ = .StartTagToken ∧ isGemName verMark = false ∧
    (step (step initState nameMark) verMark).saveName = false ∧
    (step (step (step initState nameMark) verMark) (textTok "1.0")).q.name
      = (step (step initState nameMark) verMark).q.name :=
  ⟨rfl, by decide,
   (((start_tag_disarms_flag (step initState nameMark) verMark).1 rfl).1 (by decide)).1,
   (((start_tag_disarms_flag (step initState nameMark) verMark).1 rfl).1 (by decide)).2
      (textTok "1.0") rfl⟩

/-! ## C10: the shell after a boundary marker -/

/-- C10 fails when the shell has no name: after a version text without a name,
the next boundary marker keeps the version and the url of the old shell. -/
theorem boundary_keeps_unnamed_shell :
    isBoundary divGem = true ∧
    (loop initState [anchorFoo, verMark, textTok "1.0"]).q.name = "" ∧
    (loop initState [anchorFoo, verMark, textTok "1.0", divGem]).q.version = "1.0" ∧
    (loop initState [anchorFoo, verMark, textTok "1.0", divGem]).q.url
      = "http://rubygems.org/gems/foo" ∧
    getHref divGem = "" := by
  decide

/-- C10, amended: a boundary marker processed while the shell has a name leaves
a fresh shell, whose url is empty or set from the href of that marker; when the
shell has no name it is kept, only its url is overwritten by an anchor. -/
theorem boundary_resets_named_shell (s : State) (t : Token) (ht : isBoundary t = true) :
    (s.q.name ≠ "" →
      (step s t).q.name = "" ∧ (step s t).q.version = "" ∧
      (step s t).q.description = "" ∧
      (step s t).q.url = (if isGemAnchor t = true then rubygemsRoot ++ getHref t else "")) ∧
    (s.q.name = "" →
      (step s t).q.name = "" ∧ (step s t).q.version = s.q.version ∧
      (step s t).q.description = s.q.description ∧
      (step s t).q.url
        = (if isGemAnchor t = true then rubygemsRoot ++ getHref t else s.q.url)) := by
  obtain ⟨hty, hg⟩ := (isBoundary_iff t).1 ht
  rw [step_startTag s t hty]
  constructor
  · intro hn
    simp only [onStartTag, setFlags, storeGem_named s t hg hn]
    unfold setUrl
    split <;> simp [newGem]
  · intro hn
    simp only [onStartTag, setFlags, storeGem_unnamed s t hn]
    unfold setUrl
    split <;> simp [hn]

/-- C10, amended, at a concrete state: the shell `foo` is replaced. -/
theorem boundary_resets_named_shell_witness :
    isBoundary anchorBar = true ∧ sampleNamed.q.name ≠ "" ∧
    (step sampleNamed anchorBar).q.version = "" ∧
    (step sampleNamed anchorBar).q.url = "http://rubygems.org/gems/bar" :=
  ⟨by decide, by decide,
   ((boundary_resets_named_shell sampleNamed anchorBar (by decide)).1 (by decide)).2.1,
   by
    rw [((boundary_resets_named_shell sampleNamed anchorBar (by decide)).1 (by decide)).2.2.2]
    decide⟩

/-! ## C9: the url of a record -/

theorem loop_append (l1 l2 : List Token) (s : State)
    (h : ∀ t ∈ l1, t.Typ ≠ .ErrorToken) :
    loop s (l1 ++ l2) = loop (loop s l1) l2 := by
  induction l1 generalizing s with
  | nil => rfl
  | cons t ts ih =>
    have ht := h t (List.mem_cons_self _ _)
    simp only [List.cons_append, loop, ht, if_false]
    exact ih _ (fun u hu => h u (List.mem_cons_of_mem _ hu))

theorem onText_frame (s : State) (x : Token) :
    (onText s x).gems = s.gems ∧ (onText s x).pos = s.pos ∧ (onText s x).q.url = s.q.url := by
  rcases s with ⟨g, p, q, n, v, d⟩
  cases n <;> cases v <;> cases d <;> simp [onText]

theorem storeGem_pos (s : State) (t : Token) :
    (storeGem s t = s ∧ (isGem t = false ∨ s.q.name = "")) ∨
    ((storeGem s t).pos = s.pos + 1 ∧ isGem t = true ∧ s.q.name ≠ "") := by
  by_cases hg : isGem t = true
  · by_cases hn : s.q.name = ""
    · exact Or.inl ⟨storeGem_unnamed s t hn, Or.inr hn⟩
    · right
      rw [storeGem_named s t hg hn]
      exact ⟨rfl, hg, hn⟩
  · have hg2 : isGem t = false := by simpa using hg
    exact Or.inl ⟨storeGem_not_gem s t hg2, Or.inl hg2⟩

theorem onStartTag_pos (s : State) (t : Token) :
    (onStartTag s t).pos = (storeGem s t).pos := by
  simp only [onStartTag, setFlags]
  unfold setUrl
  split <;> rfl

theorem step_pos_le (s : State) (t : Token) : s.pos ≤ (step s t).pos := by
  unfold step
  split
  · rw [onStartTag_pos]
    rcases storeGem_pos s t with h | h
    · rw [h.1]
    · rw [h.1]; omega
  · rw [(onText_frame s t).2.1]
  · exact le_refl _

theorem loop_pos_le (ts : List Token) (s : State) : s.pos ≤ (loop s ts).pos := by
  induction ts generalizing s with
  | nil => exact le_refl _
  | cons t ts ih =>
    simp only [loop]
    split
    · exact le_refl _
    · exact le_trans (step_pos_le s t) (ih _)

theorem step_url_kept (s : State) (t : Token) (hp : (step s t).pos = s.pos)
    (ha : ¬ (t.Typ = .StartTagToken ∧ isGemAnchor t = true)) :
    (step s t).q.url = s.q.url := by
  by_cases hty : t.Typ = .StartTagToken
  · have hanc : isGemAnchor t = false := by
      cases h : isGemAnchor t
      · rfl
      · exact absurd ⟨hty, h⟩ ha
    rw [step_startTag s t hty] at hp ⊢
    rw [onStartTag_pos] at hp
    rcases storeGem_pos s t with h | h
    · simp [onStartTag, setFlags, setUrl, hanc, h.1]
    · rw [h.1] at hp
      omega
  · by_cases hx : t.Typ = .TextToken
    · rw [step_text s t hx]
      exact (onText_frame s t).2.2
    · rw [step_other s t hty hx]

theorem loop_url_kept (ts : List Token) (s : State) (hp : (loop s ts).pos = s.pos)
    (ha : ∀ t ∈ ts, ¬ (t.Typ = .StartTagToken ∧ isGemAnchor t = true)) :
    (loop s ts).q.url = s.q.url := by
  induction ts generalizing s with
  | nil => rfl
  | cons t ts ih =>
    simp only [loop] at hp ⊢
    split
    · rfl
    · rename_i hne
      simp only [hne, if_false] at hp
      have h1 := step_pos_le s t
      have h2 := loop_pos_le ts (step s t)
      have hs : (step s t).pos = s.pos := by omega
      rw [ih (step s t) (by omega) (fun u hu => ha u (List.mem_cons_of_mem _ hu))]
      exact step_url_kept s t hs (ha t (List.mem_cons_self _ _))

theorem getHref_last (attrs : List Attribute) :
    attrs.foldl (fun href a => if a.Key = "href" then a.Val else href) ""
      = (((attrs.filter (fun a => decide (a.Key = "href"))).getLast?).map
          (fun a => a.Val)).getD "" := by
  induction attrs using List.reverseRecOn with
  | nil => rfl
  | append_singleton l a ih =>
    rw [List.foldl_append, List.filter_append]
    by_cases h : a.Key = "href"
    · simp [h]
    · simp [h, ih]

/-- C9: a start tag `a` with the boundary class sets the url of the current
shell to the root followed by the value of the last `href` attribute of the tag
(the empty string when there is none); a record begun by such an anchor and
stored at the next finalization, with no other boundary anchor in between, has
that url. -/
theorem anchor_sets_url (s : State) (a : Token) (hty : a.Typ = .StartTagToken)
    (ha : isGemAnchor a = true) :
    (step s a).q.url = rubygemsRoot ++ getHref a ∧
    getHref a = (((a.Attr.filter (fun x => decide (x.Key = "href"))).getLast?).map
      (fun x => x.Val)).getD "" ∧
    (∀ (mid : List Token) (b : Token),
      (∀ t ∈ mid, t.Typ ≠ .ErrorToken) →
      (∀ t ∈ mid, ¬ (t.Typ = .StartTagToken ∧ isGemAnchor t = true)) →
      (loop (step s a) mid).pos = (step s a).pos →
      (loop (step s a) mid).q.name ≠ "" →
      isBoundary b = true →
      (loop (step s a) mid).q.url = rubygemsRoot ++ getHref a ∧
      GemMap.find (loop (step s a) mid).q.name (loop s (a :: (mid ++ [b]))).gems
        = some { (loop (step s a) mid).q with
                 url := rubygemsRoot ++ getHref a, position := (step s a).pos }) := by
  have hurl : (step s a).q.url = rubygemsRoot ++ getHref a := by
    rw [step_startTag s a hty]
    simp [onStartTag, setFlags, setUrl, ha]
  refine ⟨hurl, getHref_last a.Attr, ?_⟩
  intro mid b herr hanc hpos hname hb
  have hu : (loop (step s a) mid).q.url = rubygemsRoot ++ getHref a := by
    rw [loop_url_kept mid (step s a) hpos hanc, hurl]
  refine ⟨hu, ?_⟩
  have hl : loop s (a :: (mid ++ [b])) = step (loop (step s a) mid) b := by
    have hbty := ((isBoundary_iff b).1 hb).1
    simp only [loop, hty, reduceCtorEq, if_false]
    rw [loop_append mid [b] _ herr]
    simp [loop, hbty]
  rw [hl, step_startTag _ b ((isBoundary_iff b).1 hb).1]
  simp only [onStartTag, setFlags, storeGem_named _ b ((isBoundary_iff b).1 hb).2 hname]
  have : ∀ st : State, (setUrl st b).gems = st.gems := by
    intro st; unfold setUrl; split <;> rfl
  rw [this]
  simp only [GemMap.store, GemMap.find, if_true, hpos]
  rw [← hu]

/-- C9 at a concrete stream: the record `foo` begun by an anchor is stored with
the url built from the href of that anchor. -/
theorem anchor_sets_url_witness :
    anchorFoo.Typ = .StartTagToken ∧ isGemAnchor anchorFoo = true ∧
    GemMap.find "foo"
      (loop initState (anchorFoo :: ([nameMark, textTok "foo", endTag "h2"] ++ [divGem]))).gems
      = some { name := "foo", url := "http://rubygems.org/gems/foo", version := "",
               description := "", position := 1 } := by
  refine ⟨rfl, by decide, ?_⟩
  have h := ((anchor_sets_url initState anchorFoo rfl (by decide)).2.2
    [nameMark, textTok "foo", endTag "h2"] divGem (by decide) (by decide) (by decide)
    (by decide) (by decide)).2
  have e : (loop (step initState anchorFoo) [nameMark, textTok "foo", endTag "h2"]).q.name
      = "foo" := by decide
  rw [e] at h
  rw [h]
  decide

/-! ## C2: tokens after the last boundary marker -/

theorem step_gems_not_boundary (s : State) (t : Token) (h : isBoundary t = false) :
    (step s t).gems = s.gems := by
  by_cases hty : t.Typ = .StartTagToken
  · have hg : isGem t = false := by simpa [isBoundary, hty] using h
    rw [step_startTag s t hty]
    simp only [onStartTag, setFlags, storeGem_not_gem s t hg]
    unfold setUrl
    split <;> rfl
  · by_cases hx : t.Typ = .TextToken
    · rw [step_text s t hx]
      exact (onText_frame s t).1
    · rw [step_other s t hty hx]

theorem loop_gems_no_boundary (ts : List Token) (s : State)
    (h : ∀ t ∈ ts, isBoundary t = false) : (loop s ts).gems = s.gems := by
  induction ts generalizing s with
  | nil => rfl
  | cons t ts ih =>
    simp only [loop]
    split
    · rfl
    · rw [ih _ (fun u hu => h u (List.mem_cons_of_mem _ hu))]
      exact step_gems_not_boundary s t (h t (List.mem_cons_self _ _))

theorem loop_gems_append_no_boundary (pre post : List Token) (s : State)
    (h : ∀ t ∈ post, isBoundary t = false) :
    (loop s (pre ++ post)).gems = (loop s pre).gems := by
  induction pre generalizing s with
  | nil => exact loop_gems_no_boundary post s h
  | cons t ts ih =>
    simp only [List.cons_append, loop]
    split
    · rfl
    · exact ih _

theorem uptoLastBoundary_split (ts : List Token) :
    ∃ post, ts = uptoLastBoundary ts ++ post ∧ ∀ t ∈ post, isBoundary t = false := by
  induction ts with
  | nil => exact ⟨[], rfl, by simp⟩
  | cons t ts ih =>
    unfold uptoLastBoundary
    by_cases ha : ts.any isBoundary = true
    · obtain ⟨post, h1, h2⟩ := ih
      refine ⟨post, ?_, h2⟩
      simp only [ha, if_true, List.cons_append]
      rw [← h1]
    · have hno : ∀ u ∈ ts, isBoundary u = false := by
        intro u hu
        cases hb : isBoundary u
        · rfl
        · exact absurd (List.any_eq_true.2 ⟨u, hu, hb⟩) ha
      by_cases hb : isBoundary t = true
      · exact ⟨ts, by simp [ha, hb], hno⟩
      · refine ⟨t :: ts, by simp [ha, hb], ?_⟩
        intro u hu
        rcases List.mem_cons.1 hu with h | h
        · rw [h]; simpa using hb
        · exact hno u h

/-- C2: the tokens after the last boundary marker have no effect on the result:
`searchGems` returns the same collection on the stream and on the stream cut
just after its last boundary marker, and appending tokens without a boundary
marker to any stream does not change the collection.  So the record begun by
the last boundary marker is never stored and the shell is dropped at the end. -/
theorem tokens_after_last_boundary_ignored (ts : List Token) :
    (searchGems (some ts)).1 = (searchGems (some (uptoLastBoundary ts))).1 ∧
    (∃ post, ts = uptoLastBoundary ts ++ post ∧ ∀ t ∈ post, isBoundary t = false) ∧
    (∀ post : List Token, (∀ t ∈ post, isBoundary t = false) →
      (searchGems (some (ts ++ post))).1 = (searchGems (some ts)).1) := by
  refine ⟨?_, uptoLastBoundary_split ts, ?_⟩
  · obtain ⟨post, h1, h2⟩ := uptoLastBoundary_split ts
    show (loop initState ts).gems = (loop initState (uptoLastBoundary ts)).gems
    conv_lhs => rw [h1]
    exact loop_gems_append_no_boundary _ post initState h2
  · intro post h
    exact loop_gems_append_no_boundary ts post initState h

/-- C2 at a concrete stream: the record `bar`, begun by the last boundary
marker and fully filled, is not in the result. -/
theorem tokens_after_last_boundary_ignored_witness :
    (∀ t ∈ [nameMark, textTok "bar", verMark, textTok "2.0"], isBoundary t = false) ∧
    (searchGems (some ([anchorFoo, nameMark, textTok "foo", anchorBar]
        ++ [nameMark, textTok "bar", verMark, textTok "2.0"]))).1
      = (searchGems (some [anchorFoo, nameMark, textTok "foo", anchorBar])).1 ∧
    GemMap.find "bar" (searchGems (some [anchorFoo, nameMark, textTok "foo", anchorBar,
        nameMark, textTok "bar", verMark, textTok "2.0"])).1 = none :=
  ⟨by decide,
   (tokens_after_last_boundary_ignored [anchorFoo, nameMark, textTok "foo", anchorBar]).2.2
     [nameMark, textTok "bar", verMark, textTok "2.0"] (by decide),
   by decide⟩

/-! ## C5: stored records carry their key -/

theorem wellKeyed_store (m : GemMap) (g : Gem) (hm : WellKeyed m) (hn : g.name ≠ "") :
    WellKeyed (GemMap.store g.name g m) := by
  intro e he
  simp only [GemMap.store, List.mem_cons, List.mem_filter] at he
  rcases he with h | h
  · rw [h]; exact ⟨rfl, hn⟩
  · exact hm e h.1

theorem step_wellKeyed (s : State) (t : Token) (h : WellKeyed s.gems) :
    WellKeyed (step s t).gems := by
  by_cases hb : isBoundary t = true
  · obtain ⟨hty, hg⟩ := (isBoundary_iff t).1 hb
    have hset : ∀ st : State, (setUrl st t).gems = st.gems := by
      intro st; unfold setUrl; split <;> rfl
    rw [step_startTag s t hty]
    simp only [onStartTag, setFlags, hset]
    by_cases hn : s.q.name = ""
    · rw [storeGem_unnamed s t hn]; exact h
    · rw [storeGem_named s t hg hn]
      exact wellKeyed_store s.gems { s.q with position := s.pos } h hn
  · rw [step_gems_not_boundary s t (by simpa using hb)]
    exact h

theorem loop_wellKeyed (ts : List Token) (s : State) (h : WellKeyed s.gems) :
    WellKeyed (loop s ts).gems := by
  induction ts generalizing s with
  | nil => exact h
  | cons t ts ih =>
    simp only [loop]
    split
    · exact h
    · exact ih _ (step_wellKeyed s t h)

/-- C5: every entry of the collection that `searchGems` returns has a non-empty
name and is stored under that name; the property holds after every initial
part of the stream, being preserved by every processing step. -/
theorem stored_records_are_named (ts : List Token) :
    WellKeyed (searchGems (some ts)).1 ∧
    (∀ n : Nat, WellKeyed (loop initState (ts.take n)).gems) ∧
    (∀ (s : State) (t : Token), WellKeyed s.gems → WellKeyed (step s t).gems) := by
  have h0 : WellKeyed initState.gems := by
    intro e he
    simp [initState, GemMap.empty] at he
  exact ⟨loop_wellKeyed ts initState h0, fun n => loop_wellKeyed _ initState h0,
    fun s t h => step_wellKeyed s t h⟩

/-- C5 at a concrete state: the step from `sampleNamed` keeps the property. -/
theorem stored_records_are_named_witness :
    WellKeyed sampleNamed.gems ∧ WellKeyed (step sampleNamed anchorBar).gems :=
  ⟨by simp [WellKeyed, sampleNamed],
   (stored_records_are_named []).2.2 sampleNamed anchorBar (by simp [WellKeyed, sampleNamed])⟩

/-! ## C4: records of the same name -/

theorem find_filter_ne (m : GemMap) (k n : String) (h : k ≠ n) :
    GemMap.find n (m.filter (fun e => !decide (e.1 = k))) = GemMap.find n m := by
  induction m with
  | nil => rfl
  | cons e m ih =>
    by_cases hk : e.1 = k
    · have hen : e.1 ≠ n := by rw [hk]; exact h
      simp [List.filter_cons, hk, GemMap.find, ih, h]
    · by_cases hn : e.1 = n
      · have hnk : ¬ n = k := fun x => hk (hn.trans x)
        simp [List.filter_cons, hk, GemMap.find, hn, hnk]
      · simp [List.filter_cons, hk, GemMap.find, hn, ih]

theorem find_store (m : GemMap) (k n : String) (v : Gem) :
    GemMap.find n (GemMap.store k v m) = if k = n then some v else GemMap.find n m := by
  by_cases h : k = n
  · simp [GemMap.store, GemMap.find, h]
  · simp only [GemMap.store, GemMap.find, h, if_false, decide_not]
    exact find_filter_ne m k n h

theorem storeAll_concat (m : GemMap) (log : List Gem) (g : Gem) :
    storeAll m (log ++ [g]) = GemMap.store g.name g (storeAll m log) := by
  simp [storeAll, List.foldl_append]

theorem storeAll_append (m : GemMap) (l1 l2 : List Gem) :
    storeAll m (l1 ++ l2) = storeAll (storeAll m l1) l2 := by
  simp [storeAll, List.foldl_append]

theorem find_storeAll (log : List Gem) (m : GemMap) (n : String) :
    GemMap.find n (storeAll m log)
      = ((log.filter (fun g => decide (g.name = n))).getLast?).or (GemMap.find n m) := by
  induction log using List.reverseRecOn with
  | nil => simp [storeAll]
  | append_singleton l g ih =>
    rw [storeAll_concat, find_store, List.filter_append]
    by_cases h : g.name = n
    · simp [h, List.filter_cons]
    · simp [h, List.filter_cons, ih]

theorem keys_store_nodup (m : GemMap) (k : String) (v : Gem)
    (h : (m.map Prod.fst).Nodup) : ((GemMap.store k v m).map Prod.fst).Nodup := by
  simp only [GemMap.store, List.map_cons, List.nodup_cons]
  constructor
  · intro hk
    obtain ⟨e, he, hek⟩ := List.mem_map.1 hk
    have := (List.mem_filter.1 he).2
    simp at this
    exact this hek
  · exact (List.filter_sublist m).map Prod.fst |>.nodup h

theorem keys_storeAll_nodup (log : List Gem) (m : GemMap)
    (h : (m.map Prod.fst).Nodup) : ((storeAll m log).map Prod.fst).Nodup := by
  induction log generalizing m with
  | nil => exact h
  | cons g l ih => exact ih _ (keys_store_nodup m g.name g h)

theorem step_gems_storedAt (s : State) (t : Token) :
    (step s t).gems = storeAll s.gems (storedAt s t) := by
  by_cases hb : isBoundary t = true
  · obtain ⟨hty, hg⟩ := (isBoundary_iff t).1 hb
    have hset : ∀ st : State, (setUrl st t).gems = st.gems := by
      intro st; unfold setUrl; split <;> rfl
    rw [step_startTag s t hty]
    simp only [onStartTag, setFlags, hset]
    by_cases hn : s.q.name = ""
    · have hl : ¬ 0 < s.q.name.length := by rw [length_pos_iff]; simpa using hn
      rw [storeGem_unnamed s t hn]
      simp [storedAt, hl, storeAll]
    · have hl : 0 < s.q.name.length := (length_pos_iff _).2 hn
      rw [storeGem_named s t hg hn]
      simp [storedAt, hb, hl, storeAll]
  · rw [step_gems_not_boundary s t (by simpa using hb)]
    simp [storedAt, hb, storeAll]

theorem loop_gems_finalized (ts : List Token) (s : State) :
    (loop s ts).gems = storeAll s.gems (finalized s ts) := by
  induction ts generalizing s with
  | nil => rfl
  | cons t ts ih =>
    simp only [loop, finalized]
    split
    · rfl
    · rw [ih, step_gems_storedAt, storeAll_append]

theorem find_isSome_iff_mem_keys (m : GemMap) (n : String) :
    (GemMap.find n m).isSome = true ↔ n ∈ m.map Prod.fst := by
  induction m with
  | nil => simp [GemMap.find]
  | cons e m ih =>
    by_cases h : e.1 = n
    · simp [GemMap.find, h]
    · have h2 : ¬ n = e.1 := fun x => h x.symm
      simp [GemMap.find, h, h2, ih]

theorem filter_key_length (m : GemMap) (n : String) :
    (m.filter (fun e => decide (e.1 = n))).length = (m.map Prod.fst).count n := by
  induction m with
  | nil => rfl
  | cons e m ih =>
    by_cases h : e.1 = n
    · simp [List.filter_cons, h, ih]
    · simp [List.filter_cons, h, ih, List.count_cons]

/-- C4: the collection holds at most one entry per name; the entry under a name
is the last record that was stored with that name, whatever was stored under
other names; and a name under which a record was stored has exactly one entry. -/
theorem same_name_last_wins (ts : List Token) (n : String) :
    ((searchGems (some ts)).1.map Prod.fst).Nodup ∧
    GemMap.find n (searchGems (some ts)).1
      = ((finalized initState ts).filter (fun g => decide (g.name = n))).getLast? ∧
    ((∃ g ∈ finalized initState ts, g.name = n) →
      ((searchGems (some ts)).1.filter (fun e => decide (e.1 = n))).length = 1) := by
  have hg : (searchGems (some ts)).1 = storeAll [] (finalized initState ts) :=
    loop_gems_finalized ts initState
  have hnd : ((searchGems (some ts)).1.map Prod.fst).Nodup := by
    rw [hg]; exact keys_storeAll_nodup _ [] (by simp)
  have hfind : GemMap.find n (searchGems (some ts)).1
      = ((finalized initState ts).filter (fun g => decide (g.name = n))).getLast? := by
    rw [hg, find_storeAll]
    simp [GemMap.find]
  refine ⟨hnd, hfind, ?_⟩
  rintro ⟨g, hgm, hgn⟩
  have hne : (finalized initState ts).filter (fun g => decide (g.name = n)) ≠ [] := by
    intro h
    have : g ∈ (finalized initState ts).filter (fun g => decide (g.name = n)) :=
      List.mem_filter.2 ⟨hgm, by simpa using hgn⟩
    rw [h] at this
    exact absurd this (List.not_mem_nil _)
  have hsome : (GemMap.find n (searchGems (some ts)).1).isSome = true := by
    rw [hfind]
    cases hl : ((finalized initState ts).filter (fun g => decide (g.name = n))).getLast? with
    | none => exact absurd (List.getLast?_eq_none_iff.1 hl) hne
    | some x => rfl
  have hmem := (find_isSome_iff_mem_keys _ n).1 hsome
  rw [filter_key_length]
  have h1 := List.nodup_iff_count_le_one.1 hnd n
  have h2 := List.count_pos_iff.2 hmem
  omega

/-- C4 at a concrete stream: two records named `foo` are stored; the collection
holds the second one only, with version 2.0 and position 2. -/
theorem same_name_last_wins_witness :
    (∃ g ∈ finalized initState collidingStream, g.name = "foo") ∧
    (finalized initState collidingStream).length = 2 ∧
    GemMap.find "foo" (searchGems (some collidingStream)).1
      = some { name := "foo", url := "http://rubygems.org/gems/bar", version := "2.0",
               description := "", position := 2 } ∧
    ((searchGems (some collidingStream)).1.filter (fun e => decide (e.1 = "foo"))).length = 1 := by
  have hex : ∃ g ∈ finalized initState collidingStream, g.name = "foo" :=
    ⟨{ name := "foo", url := "http://rubygems.org/gems/foo", version := "1.0",
       description := "", position := 1 }, by decide, rfl⟩
  exact ⟨hex, by decide, by decide, (same_name_last_wins collidingStream "foo").2.2 hex⟩

/-! ## C3: positions of the records of consecutive groups -/

theorem setUrl_frame (s : State) (t : Token) :
    (setUrl s t).gems = s.gems ∧ (setUrl s t).pos = s.pos := by
  unfold setUrl
  split <;> exact ⟨rfl, rfl⟩

theorem onStartTag_gems (s : State) (t : Token) :
    (onStartTag s t).gems = (storeGem s t).gems := by
  simp only [onStartTag, setFlags]
  exact (setUrl_frame _ t).1

theorem step_pos_not_boundary (s : State) (t : Token) (h : isBoundary t = false) :
    (step s t).pos = s.pos := by
  by_cases hty : t.Typ = .StartTagToken
  · have hg : isGem t = false := by simpa [isBoundary, hty] using h
    rw [step_startTag s t hty, onStartTag_pos, storeGem_not_gem s t hg]
  · by_cases hx : t.Typ = .TextToken
    · rw [step_text s t hx]
      exact (onText_frame s t).2.1
    · rw [step_other s t hty hx]

theorem loop_pos_no_boundary (ts : List Token) (s : State)
    (h : ∀ t ∈ ts, isBoundary t = false) : (loop s ts).pos = s.pos := by
  induction ts generalizing s with
  | nil => rfl
  | cons t ts ih =>
    simp only [loop]
    split
    · rfl
    · rw [ih _ (fun u hu => h u (List.mem_cons_of_mem _ hu))]
      exact step_pos_not_boundary s t (h t (List.mem_cons_self _ _))

theorem store_length_new (m : GemMap) (k : String) (v : Gem)
    (h : k ∉ m.map Prod.fst) : (GemMap.store k v m).length = m.length + 1 := by
  have hf : m.filter (fun e => decide (e.1 ≠ k)) = m := by
    apply List.filter_eq_self.2
    intro e he
    have : e.1 ≠ k := fun hk => h (List.mem_map.2 ⟨e, he, hk⟩)
    simpa using this
  simp only [GemMap.store, List.length_cons, hf]

theorem mem_keys_store (m : GemMap) (k n : String) (v : Gem)
    (h : n ∈ (GemMap.store k v m).map Prod.fst) : n = k ∨ n ∈ m.map Prod.fst := by
  simp only [GemMap.store, List.map_cons, List.mem_cons] at h
  rcases h with h | h
  · exact Or.inl h
  · right
    obtain ⟨e, he, hen⟩ := List.mem_map.1 h
    exact List.mem_map.2 ⟨e, (List.mem_filter.1 he).1, hen⟩

theorem isGroup_split (g : List Token) (h : isGroup g = true) :
    ∃ b rest, g = b :: rest ∧ isBoundary b = true ∧
      (∀ t ∈ rest, isBoundary t = false) ∧ (∀ t ∈ rest, t.Typ ≠ .ErrorToken) := by
  cases g with
  | nil => simp [isGroup] at h
  | cons b rest =>
    simp only [isGroup, Bool.and_eq_true, List.all_eq_true] at h
    refine ⟨b, rest, rfl, h.1, ?_, ?_⟩
    · intro t ht
      have := h.2 t ht
      simp at this
      exact this.1
    · intro t ht
      have := h.2 t ht
      simp at this
      exact this.2

theorem boundary_not_error (b : Token) (h : isBoundary b = true) :
    b.Typ ≠ .ErrorToken := by
  rw [((isBoundary_iff b).1 h).1]
  simp

theorem flatten_groups_no_error (gs : List (List Token))
    (h : ∀ g ∈ gs, isGroup g = true) : ∀ t ∈ gs.flatten, t.Typ ≠ .ErrorToken := by
  intro t ht
  obtain ⟨g, hg, htg⟩ := List.mem_flatten.1 ht
  obtain ⟨b, rest, e, hb, _, hr⟩ := isGroup_split g (h g hg)
  rw [e] at htg
  rcases List.mem_cons.1 htg with h1 | h1
  · rw [h1]; exact boundary_not_error b hb
  · exact hr t h1

theorem recordAfter_append (gs : List (List Token)) (g : List Token) (i : Nat)
    (h : i < gs.length) : recordAfter (gs ++ [g]) i = recordAfter gs i := by
  unfold recordAfter
  rw [List.take_append_of_le_length (by omega)]

theorem recordAfter_last (gs : List (List Token)) (g : List Token) :
    recordAfter (gs ++ [g]) gs.length = (loop initState (gs.flatten ++ g)).q := by
  unfold recordAfter
  rw [List.take_of_length_le (by simp), List.flatten_concat]

theorem step_boundary_named (s : State) (t : Token) (ht : isBoundary t = true)
    (hn : s.q.name ≠ "") :
    (step s t).gems = GemMap.store s.q.name { s.q with position := s.pos } s.gems ∧
    (step s t).pos = s.pos + 1 := by
  obtain ⟨hty, hg⟩ := (isBoundary_iff t).1 ht
  rw [step_startTag s t hty, onStartTag_gems, onStartTag_pos, storeGem_named s t hg hn]
  exact ⟨rfl, rfl⟩

theorem step_boundary_unnamed (s : State) (t : Token) (ht : isBoundary t = true)
    (hn : s.q.name = "") :
    (step s t).gems = s.gems ∧ (step s t).pos = s.pos := by
  obtain ⟨hty, _⟩ := (isBoundary_iff t).1 ht
  rw [step_startTag s t hty, onStartTag_gems, onStartTag_pos, storeGem_unnamed s t hn]
  exact ⟨rfl, rfl⟩

theorem loop_singleton (s : State) (t : Token) (h : t.Typ ≠ .ErrorToken) :
    loop s [t] = step s t := by
  simp [loop, h]

/-- The state of the loop after a sequence of groups and one more boundary
marker: one entry per group, the counter one above their number. -/
theorem groups_run (groups : List (List Token)) :
    ∀ final : Token,
    (∀ g ∈ groups, isGroup g = true) →
    (∀ i, i < groups.length → (recordAfter groups i).name ≠ "") →
    (∀ i j, i < j → j < groups.length →
      (recordAfter groups i).name ≠ (recordAfter groups j).name) →
    isBoundary final = true →
    (loop initState (groups.flatten ++ [final])).gems.length = groups.length ∧
    (loop initState (groups.flatten ++ [final])).pos = 1 + (groups.length : Int) ∧
    (∀ k ∈ (loop initState (groups.flatten ++ [final])).gems.map Prod.fst,
      ∃ i, i < groups.length ∧ k = (recordAfter groups i).name) ∧
    (∀ i, i < groups.length →
      GemMap.find (recordAfter groups i).name
          (loop initState (groups.flatten ++ [final])).gems
        = some { recordAfter groups i with position := (i : Int) + 1 }) := by
  induction groups using List.reverseRecOn with
  | nil =>
    intro final _ _ _ hf
    have hl : loop initState (([] : List (List Token)).flatten ++ [final])
        = step initState final := by
      simpa using loop_singleton initState final (boundary_not_error final hf)
    rw [hl]
    obtain ⟨h1, h2⟩ := step_boundary_unnamed initState final hf rfl
    rw [h1, h2]
    refine ⟨rfl, rfl, ?_, ?_⟩
    · intro k hk
      simp [initState, GemMap.empty] at hk
    · intro i hi
      simp at hi
  | append_singleton gs g ih =>
    intro final hgrp hname hdist hf
    obtain ⟨b, rest, hgeq, hb, hrestB, hrestE⟩ :=
      isGroup_split g (hgrp g (by simp))
    have hgs : ∀ x ∈ gs, isGroup x = true := fun x hx => hgrp x (by simp [hx])
    have hnameGs : ∀ i, i < gs.length → (recordAfter gs i).name ≠ "" := by
      intro i hi
      rw [← recordAfter_append gs g i hi]
      exact hname i (by simp; omega)
    have hdistGs : ∀ i j, i < j → j < gs.length →
        (recordAfter gs i).name ≠ (recordAfter gs j).name := by
      intro i j hij hj
      rw [← recordAfter_append gs g i (by omega), ← recordAfter_append gs g j hj]
      exact hdist i j hij (by simp; omega)
    obtain ⟨ihLen, ihPos, ihKeys, ihFind⟩ := ih b hgs hnameGs hdistGs hb
    -- the run splits at the boundary marker of the last group
    have hshape : (gs ++ [g]).flatten ++ [final]
        = (gs.flatten ++ [b]) ++ (rest ++ [final]) := by
      rw [List.flatten_concat, hgeq]
      simp
    have hnoErr1 : ∀ t ∈ gs.flatten ++ [b], t.Typ ≠ .ErrorToken := by
      intro t ht
      rcases List.mem_append.1 ht with h | h
      · exact flatten_groups_no_error gs hgs t h
      · rw [List.mem_singleton.1 h]; exact boundary_not_error b hb
    have hrun : loop initState ((gs ++ [g]).flatten ++ [final])
        = step (loop (loop initState (gs.flatten ++ [b])) rest) final := by
      rw [hshape, loop_append _ _ _ hnoErr1, loop_append _ _ _ hrestE,
        loop_singleton _ _ (boundary_not_error final hf)]
    have hq : (loop (loop initState (gs.flatten ++ [b])) rest).q
        = recordAfter (gs ++ [g]) gs.length := by
      rw [recordAfter_last, ← loop_append _ _ _ hnoErr1, hgeq]
      simp
    have hgems2 := loop_gems_no_boundary rest (loop initState (gs.flatten ++ [b])) hrestB
    have hpos2 := loop_pos_no_boundary rest (loop initState (gs.flatten ++ [b])) hrestB
    have hnm : (loop (loop initState (gs.flatten ++ [b])) rest).q.name ≠ "" := by
      rw [hq]; exact hname gs.length (by simp)
    obtain ⟨hG, hP⟩ := step_boundary_named _ final hf hnm
    rw [hrun, hG, hP, hgems2, hpos2, hq, ihPos]
    have hnew : (recordAfter (gs ++ [g]) gs.length).name
        ∉ (loop initState (gs.flatten ++ [b])).gems.map Prod.fst := by
      intro hmem
      obtain ⟨i, hi, hk⟩ := ihKeys _ hmem
      rw [← recordAfter_append gs g i hi] at hk
      exact hdist i gs.length hi (by simp) hk.symm
    refine ⟨?_, ?_, ?_, ?_⟩
    · rw [store_length_new _ _ _ hnew, ihLen]
      simp
    · simp only [List.length_append, List.length_singleton]
      push_cast
      ring
    · intro k hk
      rcases mem_keys_store _ _ _ _ hk with h | h
      · exact ⟨gs.length, by simp, h⟩
      · obtain ⟨i, hi, hk2⟩ := ihKeys k h
        refine ⟨i, by simp; omega, ?_⟩
        rw [recordAfter_append gs g i hi]
        exact hk2
    · intro i hi
      rw [find_store]
      by_cases hlast : i = gs.length
      · subst hlast
        simp
        ring
      · have hi2 : i < gs.length := by
          simp at hi; omega
        have hne : (recordAfter (gs ++ [g]) gs.length).name
            ≠ (recordAfter (gs ++ [g]) i).name :=
          fun h => hdist i gs.length hi2 (by simp) h.symm
        rw [if_neg hne, recordAfter_append gs g i hi2]
        exact ihFind i hi2

/-- C3: for a stream made of K groups and one more boundary marker, where each
group starts with a boundary marker, holds no other boundary marker and leaves
the shell in progress with a non-empty name, the K names being pairwise
distinct, `searchGems` returns exactly K entries, and the record of the group
of index i (from 0) is stored under its name with position i + 1. -/
theorem groups_get_positions (groups : List (List Token)) (final : Token)
    (hgrp : ∀ g ∈ groups, isGroup g = true)
    (hname : ∀ i, i < groups.length → (recordAfter groups i).name ≠ "")
    (hdist : ∀ i j, i < j → j < groups.length →
      (recordAfter groups i).name ≠ (recordAfter groups j).name)
    (hf : isBoundary final = true) :
    GemMap.size (searchGems (some (groups.flatten ++ [final]))).1 = groups.length ∧
    (∀ i, i < groups.length →
      GemMap.find (recordAfter groups i).name
          (searchGems (some (groups.flatten ++ [final]))).1
        = some { recordAfter groups i with position := (i : Int) + 1 }) := by
  obtain ⟨h1, _, _, h4⟩ := groups_run groups final hgrp hname hdist hf
  exact ⟨h1, h4⟩

theorem threeGroups_named (i : Nat) (hi : i < threeGroups.length) :
    (recordAfter threeGroups i).name ≠ "" := by
  have h3 : threeGroups.length = 3 := rfl
  rw [h3] at hi
  interval_cases i <;> decide

theorem threeGroups_distinct (i j : Nat) (hij : i < j) (hj : j < threeGroups.length) :
    (recordAfter threeGroups i).name ≠ (recordAfter threeGroups j).name := by
  have h3 : threeGroups.length = 3 := rfl
  rw [h3] at hj
  interval_cases j <;> interval_cases i <;> decide

/-- C3 at a concrete stream of three groups: three entries, and the record of
the third group, `baz`, has position 3. -/
theorem groups_get_positions_witness :
    (∀ g ∈ threeGroups, isGroup g = true) ∧ isBoundary divGem = true ∧
    GemMap.size (searchGems (some (threeGroups.flatten ++ [divGem]))).1 = threeGroups.length ∧
    GemMap.find (recordAfter threeGroups 2).name
        (searchGems (some (threeGroups.flatten ++ [divGem]))).1
      = some { recordAfter threeGroups 2 with position := ((2 : Nat) : Int) + 1 } ∧
    (recordAfter threeGroups 2).name = "baz" :=
  ⟨by decide, by decide,
   (groups_get_positions threeGroups divGem (by decide) threeGroups_named
      threeGroups_distinct (by decide)).1,
   (groups_get_positions threeGroups divGem (by decide) threeGroups_named
      threeGroups_distinct (by decide)).2 2 (by decide),
   by decide⟩

/-! ## C18: the flags after a start tag -/

theorem foldl_class_iff (attrs : List Attribute) (cls : String) (b : Bool) :
    attrs.foldl (fun hasClass linkAttr =>
        if linkAttr.Key = "class" ∧ linkAttr.Val = cls then true else hasClass) b = true
      ↔ b = true ∨ ∃ a ∈ attrs, a.Key = "class" ∧ a.Val = cls := by
  induction attrs generalizing b with
  | nil => simp
  | cons x xs ih =>
    rw [List.foldl_cons, ih]
    by_cases hx : x.Key = "class" ∧ x.Val = cls
    · simp [hx]
    · simp only [hx, if_false, List.mem_cons, exists_eq_or_imp, false_or]

theorem itHasClass_iff (t : Token) (cls : String) :
    itHasClass t cls = true ↔ ∃ a ∈ t.Attr, a.Key = "class" ∧ a.Val = cls := by
  unfold itHasClass
  rw [foldl_class_iff]
  simp

/-- C18: after a start tag each of the three flags is armed exactly when the
tag has an attribute `class` whose value is the marker of that field, whatever
the flags were before; a tag without any of the markers disarms all three, and
a tag whose class values are all field markers is not a boundary marker. -/
theorem start_tag_sets_flags (s : State) (t : Token) (ht : t.Typ = .StartTagToken) :
    ((step s t).saveName = true
      ↔ ∃ a ∈ t.Attr, a.Key = "class" ∧ a.Val = "gems__gem__name") ∧
    ((step s t).saveVer = true
      ↔ ∃ a ∈ t.Attr, a.Key = "class" ∧ a.Val = "gems__gem__version") ∧
    ((step s t).saveDesc = true
      ↔ ∃ a ∈ t.Attr, a.Key = "class" ∧ a.Val = "gems__gem__desc") ∧
    ((∀ a ∈ t.Attr, a.Key = "class" → a.Val ≠ "gems__gem__name" ∧
        a.Val ≠ "gems__gem__version" ∧ a.Val ≠ "gems__gem__desc") →
      (step s t).saveName = false ∧ (step s t).saveVer = false ∧
      (step s t).saveDesc = false) ∧
    ((∀ a ∈ t.Attr, a.Key = "class" → a.Val = "gems__gem__name" ∨
        a.Val = "gems__gem__version" ∨ a.Val = "gems__gem__desc") →
      isBoundary t = false) := by
  obtain ⟨f1, f2, f3⟩ := onStartTag_flags s t
  rw [step_startTag s t ht, f1, f2, f3]
  refine ⟨itHasClass_iff t _, itHasClass_iff t _, itHasClass_iff t _, ?_, ?_⟩
  · intro h
    refine ⟨?_, ?_, ?_⟩
    · cases hc : isGemName t
      · rfl
      · obtain ⟨a, ha, hk, hv⟩ := (itHasClass_iff t _).1 hc
        exact absurd hv (h a ha hk).1
    · cases hc : isGemVersion t
      · rfl
      · obtain ⟨a, ha, hk, hv⟩ := (itHasClass_iff t _).1 hc
        exact absurd hv (h a ha hk).2.1
    · cases hc : isGemDesc t
      · rfl
      · obtain ⟨a, ha, hk, hv⟩ := (itHasClass_iff t _).1 hc
        exact absurd hv (h a ha hk).2.2
  · intro h
    cases hc : isBoundary t
    · rfl
    · obtain ⟨a, ha, hk, hv⟩ := (itHasClass_iff t _).1 ((isBoundary_iff t).1 hc).2
      rcases h a ha hk with h1 | h1 | h1 <;> rw [hv] at h1 <;> exact absurd h1 (by decide)

/-- C18 at a concrete tag: the version marker arms the version flag only, also
when the name flag was armed before, and it is not a boundary marker. -/
theorem start_tag_sets_flags_witness :
    verMark.Typ = .StartTagToken ∧
    (step (step initState nameMark) verMark).saveVer = true ∧
    (step (step initState nameMark) verMark).saveName = false ∧
    isBoundary verMark = false :=
  ⟨rfl,
   (start_tag_sets_flags (step initState nameMark) verMark rfl).2.1.2
     ⟨{ Namespace := "", Key := "class", Val := "gems__gem__version" }, by decide, rfl, rfl⟩,
   by decide,
   (start_tag_sets_flags (step initState nameMark) verMark rfl).2.2.2.2 (by decide)⟩

/-! ## C19: tokens without a branch -/

theorem step_inert (s : State) (t : Token) (h : isInert t = true) : step s t = s := by
  apply step_other <;>
    (simp only [isInert, Bool.or_eq_true, decide_eq_true_eq] at h
     rcases h with ((h | h) | h) | h <;> simp [h])

theorem inert_not_error (t : Token) (h : isInert t = true) : t.Typ ≠ .ErrorToken := by
  simp only [isInert, Bool.or_eq_true, decide_eq_true_eq] at h
  rcases h with ((h | h) | h) | h <;> simp [h]

theorem loop_filter_inert (ts : List Token) (s : State) :
    loop s (ts.filter (fun u => !isInert u)) = loop s ts := by
  induction ts generalizing s with
  | nil => rfl
  | cons t ts ih =>
    by_cases h : isInert t = true
    · have he := inert_not_error t h
      simp only [List.filter_cons, h, Bool.not_true, loop, he, if_false, step_inert s t h]
      simpa using ih s
    · have h2 : isInert t = false := by simpa using h
      simp only [List.filter_cons, h2, Bool.not_false, if_true, loop]
      split
      · rfl
      · exact ih _

theorem filter_inert_insert (pre ins post : List Token)
    (h : ∀ u ∈ ins, isInert u = true) :
    (pre ++ ins ++ post).filter (fun u => !isInert u)
      = (pre ++ post).filter (fun u => !isInert u) := by
  have : ins.filter (fun u => !isInert u) = [] := by
    apply List.filter_eq_nil_iff.2
    intro u hu
    simp [h u hu]
  simp [List.filter_append, this]

/-- C19: end tags, self-closing tags, comments and doctypes leave the whole
state unchanged, flags included; removing all of them from a stream, or
inserting some of them at any place, does not change what `searchGems` returns. -/
theorem inert_tokens_ignored (ts : List Token) :
    (∀ (s : State) (t : Token), isInert t = true → step s t = s) ∧
    (searchGems (some (ts.filter (fun u => !isInert u)))).1 = (searchGems (some ts)).1 ∧
    (∀ pre post ins : List Token, ts = pre ++ post → (∀ u ∈ ins, isInert u = true) →
      (searchGems (some (pre ++ ins ++ post))).1 = (searchGems (some ts)).1) := by
  refine ⟨step_inert, ?_, ?_⟩
  · show (loop initState _).gems = (loop initState ts).gems
    rw [loop_filter_inert]
  · intro pre post ins hts hins
    show (loop initState _).gems = (loop initState ts).gems
    rw [← loop_filter_inert (pre ++ ins ++ post), filter_inert_insert pre ins post hins,
      loop_filter_inert, hts]

/-- C19 at a concrete stream: a comment and an end tag inserted between the
name marker and its text change nothing. -/
theorem inert_tokens_ignored_witness :
    (∀ u ∈ [commentTok, endTag "h2"], isInert u = true) ∧
    (searchGems (some ([anchorFoo, nameMark] ++ [commentTok, endTag "h2"]
        ++ [textTok "foo", divGem]))).1
      = (searchGems (some [anchorFoo, nameMark, textTok "foo", divGem])).1 ∧
    step sampleNamed commentTok = sampleNamed :=
  ⟨by decide,
   (inert_tokens_ignored [anchorFoo, nameMark, textTok "foo", divGem]).2.2
     [anchorFoo, nameMark] [textTok "foo", divGem] [commentTok, endTag "h2"] rfl (by decide),
   (inert_tokens_ignored []).1 sampleNamed commentTok (by decide)⟩

/-! ## C20: at most one entry per boundary marker -/

theorem store_length_le (m : GemMap) (k : String) (v : Gem) :
    (GemMap.store k v m).length ≤ m.length + 1 := by
  simp only [GemMap.store, List.length_cons]
  exact Nat.succ_le_succ (List.length_filter_le _ m)

theorem storeAll_length_le (log : List Gem) (m : GemMap) :
    (storeAll m log).length ≤ m.length + log.length := by
  induction log generalizing m with
  | nil => simp [storeAll]
  | cons g l ih =>
    have h1 := ih (GemMap.store g.name g m)
    have h2 := store_length_le m g.name g
    simp only [storeAll, List.foldl_cons, List.length_cons] at h1 ⊢
    omega

theorem storedAt_length_le (s : State) (t : Token) :
    (storedAt s t).length ≤ (if isBoundary t = true then 1 else 0) := by
  unfold storedAt
  by_cases hb : isBoundary t = true
  · by_cases hn : 0 < s.q.name.length <;> simp [hb, hn]
  · simp [hb]

theorem finalized_length_le (ts : List Token) (s : State) :
    (finalized s ts).length ≤ ts.countP isBoundary := by
  induction ts generalizing s with
  | nil => simp [finalized]
  | cons t ts ih =>
    simp only [finalized]
    split
    · simp
    · have h1 := ih (step s t)
      have h2 := storedAt_length_le s t
      rw [List.length_append, List.countP_cons]
      omega

/-- C20: the collection that `searchGems` returns has at most as many entries
as the stream has boundary markers; a stream without a boundary marker yields
the empty collection. -/
theorem entries_bounded_by_boundaries (ts : List Token) :
    GemMap.size (searchGems (some ts)).1 ≤ ts.countP isBoundary ∧
    ((∀ t ∈ ts, isBoundary t = false) → (searchGems (some ts)).1 = []) := by
  constructor
  · show (loop initState ts).gems.length ≤ _
    rw [loop_gems_finalized]
    have h1 := storeAll_length_le (finalized initState ts) initState.gems
    have h2 := finalized_length_le ts initState
    have h3 : initState.gems.length = 0 := rfl
    omega
  · intro h
    exact loop_gems_no_boundary ts initState h

/-- C20 at a concrete stream: name, version and description text without any
boundary marker give the empty collection. -/
theorem entries_bounded_by_boundaries_witness :
    (∀ t ∈ [nameMark, textTok "foo", verMark, textTok "1.0", descMark, textTok "d"],
      isBoundary t = false) ∧
    (searchGems (some [nameMark, textTok "foo", verMark, textTok "1.0", descMark,
      textTok "d"])).1 = [] :=
  ⟨by decide,
   (entries_bounded_by_boundaries
      [nameMark, textTok "foo", verMark, textTok "1.0", descMark, textTok "d"]).2
      (by decide)⟩

/-! ## C12: positions of the stored records -/

theorem storedAt_cases (s : State) (t : Token) :
    (storedAt s t = [] ∧ (step s t).pos = s.pos) ∨
    (storedAt s t = [{ s.q with position := s.pos }] ∧ (step s t).pos = s.pos + 1) := by
  by_cases hb : isBoundary t = true
  · by_cases hn : s.q.name = ""
    · left
      have hl : ¬ 0 < s.q.name.length := by rw [length_pos_iff]; simpa using hn
      exact ⟨by simp [storedAt, hl], (step_boundary_unnamed s t hb hn).2⟩
    · right
      have hl : 0 < s.q.name.length := (length_pos_iff _).2 hn
      exact ⟨by simp [storedAt, hb, hl], (step_boundary_named s t hb hn).2⟩
  · left
    exact ⟨by simp [storedAt, hb], step_pos_not_boundary s t (by simpa using hb)⟩

theorem loop_pos_finalized (ts : List Token) (s : State) :
    (loop s ts).pos = s.pos + ((finalized s ts).length : Int) := by
  induction ts generalizing s with
  | nil => simp [loop, finalized]
  | cons t ts ih =>
    simp only [loop, finalized]
    split
    · simp
    · rw [ih, List.length_append]
      rcases storedAt_cases s t with h | h
      · rw [h.1, h.2]
        simp
      · rw [h.1, h.2]
        simp
        ring

theorem finalized_bounds (ts : List Token) (s : State) :
    ∀ g ∈ finalized s ts, s.pos ≤ g.position ∧ g.position < (loop s ts).pos := by
  induction ts generalizing s with
  | nil => simp [finalized]
  | cons t ts ih =>
    intro g hg
    simp only [finalized] at hg
    simp only [loop]
    split
    · rename_i he
      simp [he] at hg
    · rename_i he
      simp only [he, if_false, List.mem_append] at hg
      have hmono := loop_pos_le ts (step s t)
      have hstep := step_pos_le s t
      rcases hg with hg | hg
      · rcases storedAt_cases s t with h | h
        · rw [h.1] at hg; simp at hg
        · rw [h.1] at hg
          simp only [List.mem_singleton] at hg
          have hp : g.position = s.pos := by rw [hg]
          have := h.2
          omega
      · have := ih (step s t) g hg
        omega

theorem finalized_increasing (ts : List Token) (s : State) :
    (finalized s ts).Pairwise (fun a b => a.position < b.position) := by
  induction ts generalizing s with
  | nil => simp [finalized]
  | cons t ts ih =>
    simp only [finalized]
    split
    · simp
    · rw [List.pairwise_append]
      refine ⟨?_, ih _, ?_⟩
      · rcases storedAt_cases s t with h | h <;> rw [h.1] <;> simp
      · intro a ha b hb
        have hbnd := (finalized_bounds ts (step s t) b hb).1
        rcases storedAt_cases s t with h | h
        · rw [h.1] at ha; simp at ha
        · rw [h.1] at ha
          simp only [List.mem_singleton] at ha
          have hp : a.position = s.pos := by rw [ha]
          have := h.2
          omega

theorem storeAll_values_sublist (log : List Gem) :
    ((storeAll [] log).map Prod.snd).reverse.Sublist log := by
  induction log using List.reverseRecOn with
  | nil => simp [storeAll]
  | append_singleton l g ih =>
    rw [storeAll_concat]
    simp only [GemMap.store, List.map_cons, List.reverse_cons]
    apply List.Sublist.append _ (List.Sublist.refl _)
    exact (((List.filter_sublist _).map Prod.snd).reverse).trans ih

theorem result_values_decreasing (ts : List Token) :
    ((loop initState ts).gems.map Prod.snd).Pairwise
      (fun a b => b.position < a.position) := by
  have h := (finalized_increasing ts initState).sublist
    (storeAll_values_sublist (finalized initState ts))
  rw [List.pairwise_reverse] at h
  rw [loop_gems_finalized]
  exact h

theorem result_values_mem (ts : List Token) (e : String × Gem)
    (he : e ∈ (loop initState ts).gems) : e.2 ∈ finalized initState ts := by
  rw [loop_gems_finalized] at he
  have h1 : e.2 ∈ ((storeAll [] (finalized initState ts)).map Prod.snd).reverse :=
    List.mem_reverse.2 (List.mem_map.2 ⟨e, he, rfl⟩)
  exact (storeAll_values_sublist _).subset h1

/-- C12: the records in the collection that `searchGems` returns have pairwise
distinct positions, each at least 1 and at most the number of records stored
during the run, which is one less than the final value of the counter; this
holds also when a record has replaced an earlier one of the same name. -/
theorem positions_distinct_and_bounded (ts : List Token) :
    ((searchGems (some ts)).1.map (fun e => e.2.position)).Nodup ∧
    (∀ e ∈ (searchGems (some ts)).1,
      1 ≤ e.2.position ∧ e.2.position ≤ ((finalized initState ts).length : Int) ∧
      e.2.position < (loop initState ts).pos) ∧
    (loop initState ts).pos = 1 + ((finalized initState ts).length : Int) := by
  have hpos := loop_pos_finalized ts initState
  have hp1 : initState.pos = 1 := rfl
  rw [hp1] at hpos
  refine ⟨?_, ?_, hpos⟩
  · have h := result_values_decreasing ts
    have h2 : ((loop initState ts).gems.map (fun e => e.2.position)).Pairwise
        (fun a b => b < a) := by
      rw [List.pairwise_map] at h ⊢
      exact h
    exact h2.imp (fun hab => ne_of_gt hab)
  · intro e he
    have hb := finalized_bounds ts initState e.2 (result_values_mem ts e he)
    rw [hp1] at hb
    refine ⟨hb.1, ?_, hb.2⟩
    have := hb.2
    omega

/-! ## C13: the printed order -/

theorem less_iff (a : List Gem) (i j : Fin a.length) :
    byPosition.Less a i j = true ↔ (a.get i).position < (a.get j).position := by
  unfold byPosition.Less
  by_cases h : (a.get i).position < (a.get j).position
  · simp [h]
  · simp [h]

theorem swap_adjacent (L R : List Gem) (x y : Gem)
    (h1 : L.length + 1 < (L ++ y :: x :: R).length)
    (h0 : L.length < (L ++ y :: x :: R).length) :
    byPosition.Swap (L ++ y :: x :: R) ⟨L.length + 1, h1⟩ ⟨L.length, h0⟩
      = L ++ x :: y :: R := by
  induction L with
  | nil => simp [byPosition.Swap]
  | cons l L ih =>
    have := ih (by simp) (by simp)
    simp only [byPosition.Swap, List.get_eq_getElem] at this ⊢
    simp only [List.cons_append, List.length_cons, List.getElem_cons_succ, List.set_cons_succ]
    rw [this]

theorem sinkDown_spec (rp : List Gem) (x : Gem) (post : List Gem) :
    sinkDown (rp.reverse ++ x :: post) rp.length = (sinkInto x rp).reverse ++ post := by
  induction rp generalizing post with
  | nil => simp [sinkDown, sinkInto]
  | cons y ys ih =>
    have hlen : (y :: ys).length = ys.length + 1 := rfl
    have hlist : (y :: ys).reverse ++ x :: post = ys.reverse ++ y :: x :: post := by simp
    have hl : ys.reverse.length = ys.length := List.length_reverse ys
    rw [hlen, hlist]
    have hb : ys.length + 1 < (ys.reverse ++ y :: x :: post).length := by simp
    have hx : (ys.reverse ++ y :: x :: post).get ⟨ys.length + 1, hb⟩ = x := by
      simp [List.getElem_append_right, hl]
    have hy : (ys.reverse ++ y :: x :: post).get ⟨ys.length, Nat.lt_of_succ_lt hb⟩ = y := by
      simp [List.getElem_append_right, hl]
    unfold sinkDown
    simp only [hb, dite_true]
    by_cases hlt : x.position < y.position
    · have hless : byPosition.Less (ys.reverse ++ y :: x :: post) ⟨ys.length + 1, hb⟩
          ⟨ys.length, Nat.lt_of_succ_lt hb⟩ = true := by
        rw [less_iff, hx, hy]; exact hlt
      simp only [hless, if_true]
      have hsw := swap_adjacent ys.reverse post x y (by simp) (by simp)
      simp only [hl] at hsw
      rw [hsw, ih (y :: post)]
      simp [sinkInto, hlt]
    · have hless : byPosition.Less (ys.reverse ++ y :: x :: post) ⟨ys.length + 1, hb⟩
          ⟨ys.length, Nat.lt_of_succ_lt hb⟩ = false := by
        cases hc : byPosition.Less (ys.reverse ++ y :: x :: post) ⟨ys.length + 1, hb⟩
          ⟨ys.length, Nat.lt_of_succ_lt hb⟩
        · rfl
        · rw [less_iff, hx, hy] at hc; exact absurd hc hlt
      simp [hless, sinkInto, hlt]

theorem sinkInto_length (x : Gem) (rp : List Gem) :
    (sinkInto x rp).length = rp.length + 1 := by
  induction rp with
  | nil => rfl
  | cons y ys ih =>
    unfold sinkInto
    split
    · simp [ih]
    · simp

theorem insertion_loop_spec (rest rp : List Gem) :
    (List.range' rp.length rest.length).foldl sinkDown (rp.reverse ++ rest)
      = (rest.foldl (fun acc x => sinkInto x acc) rp).reverse := by
  induction rest generalizing rp with
  | nil => simp
  | cons x rest ih =>
    simp only [List.length_cons, List.range'_succ, List.foldl_cons]
    rw [sinkDown_spec rp x rest]
    have h := ih (sinkInto x rp)
    rw [sinkInto_length] at h
    exact h

theorem sortSort_spec (a : List Gem) :
    sortSort a = (a.foldl (fun acc x => sinkInto x acc) []).reverse := by
  cases a with
  | nil => rfl
  | cons x rest =>
    have h := insertion_loop_spec rest [x]
    simp only [List.length_singleton, List.reverse_singleton, List.singleton_append] at h
    simp only [sortSort, byPosition.Len, List.length_cons, Nat.add_sub_cancel,
      List.foldl_cons]
    rw [h]
    rfl

theorem sinkInto_perm (x : Gem) (rp : List Gem) : (sinkInto x rp).Perm (x :: rp) := by
  induction rp with
  | nil => exact List.Perm.refl _
  | cons y ys ih =>
    unfold sinkInto
    split
    · exact (List.Perm.cons y ih).trans (List.Perm.swap x y ys)
    · exact List.Perm.refl _

theorem sinkInto_descending (x : Gem) (rp : List Gem)
    (h : rp.Pairwise (fun a b => b.position ≤ a.position)) :
    (sinkInto x rp).Pairwise (fun a b => b.position ≤ a.position) := by
  induction rp with
  | nil => simp [sinkInto]
  | cons y ys ih =>
    obtain ⟨hy, hys⟩ := List.pairwise_cons.1 h
    unfold sinkInto
    split
    · rename_i hlt
      refine List.pairwise_cons.2 ⟨?_, ih hys⟩
      intro b hb
      rcases List.mem_cons.1 ((sinkInto_perm x ys).subset hb) with hbx | hbys
      · rw [hbx]; exact le_of_lt hlt
      · exact hy b hbys
    · rename_i hnlt
      refine List.pairwise_cons.2 ⟨?_, h⟩
      intro b hb
      have hxy : y.position ≤ x.position := not_lt.1 hnlt
      rcases List.mem_cons.1 hb with hby | hbys
      · rw [hby]; exact hxy
      · exact le_trans (hy b hbys) hxy

theorem foldl_sinkInto (a rp : List Gem)
    (h : rp.Pairwise (fun a b => b.position ≤ a.position)) :
    (a.foldl (fun acc x => sinkInto x acc) rp).Perm (a.reverse ++ rp) ∧
    (a.foldl (fun acc x => sinkInto x acc) rp).Pairwise
      (fun a b => b.position ≤ a.position) := by
  induction a generalizing rp with
  | nil => exact ⟨by simp, h⟩
  | cons x xs ih =>
    obtain ⟨p, s⟩ := ih (sinkInto x rp) (sinkInto_descending x rp h)
    refine ⟨?_, s⟩
    simp only [List.foldl_cons, List.reverse_cons, List.append_assoc, List.singleton_append]
    exact p.trans (List.Perm.append_left _ (sinkInto_perm x rp))

theorem sortSort_perm (a : List Gem) : (sortSort a).Perm a := by
  rw [sortSort_spec]
  have h := (foldl_sinkInto a [] List.Pairwise.nil).1
  simp only [List.append_nil] at h
  exact (List.reverse_perm _).trans (h.trans (List.reverse_perm a))

theorem sortSort_ascending (a : List Gem) :
    (sortSort a).Pairwise (fun x y => x.position ≤ y.position) := by
  rw [sortSort_spec, List.pairwise_reverse]
  exact (foldl_sinkInto a [] List.Pairwise.nil).2

theorem strict_of_distinct (l : List Gem)
    (h1 : l.Pairwise (fun x y => x.position ≤ y.position))
    (h2 : (l.map (fun g => g.position)).Nodup) :
    l.Pairwise (fun x y => x.position < y.position) := by
  have h3 : l.Pairwise (fun x y => x.position ≠ y.position) := by
    unfold List.Nodup at h2
    rw [List.pairwise_map] at h2
    exact h2
  exact (h1.and h3).imp (fun h => lt_of_le_of_ne h.1 h.2)

theorem strict_sorted_unique (l1 l2 : List Gem) (hp : l1.Perm l2)
    (h1 : l1.Pairwise (fun x y => x.position < y.position))
    (h2 : l2.Pairwise (fun x y => x.position < y.position)) : l1 = l2 := by
  haveI : IsAntisymm Gem (fun x y => x.position < y.position) :=
    ⟨fun x y hxy hyx => absurd hxy (not_lt_of_gt hyx)⟩
  exact List.eq_of_perm_of_sorted hp h1 h2

theorem sortSort_strict (a : List Gem) (h : (a.map (fun g => g.position)).Nodup) :
    (sortSort a).Pairwise (fun x y => x.position < y.position) := by
  apply strict_of_distinct _ (sortSort_ascending a)
  exact ((sortSort_perm a).map (fun g => g.position)).nodup_iff.2 h

theorem sortOutput_ascending (a out : List Gem) (h : IsSortOutput a out) :
    out.Pairwise (fun x y => x.position ≤ y.position) := by
  rw [List.pairwise_iff_get]
  intro i j hij
  have hl := h.2 i j hij
  have hnot : ¬ (out.get j).position < (out.get i).position := by
    intro hlt
    rw [(less_iff out j i).2 hlt] at hl
    exact absurd hl (by decide)
  exact not_lt.1 hnot

theorem sortOutput_unique (a out : List Gem) (hd : (a.map (fun g => g.position)).Nodup)
    (h : IsSortOutput a out) : out = sortSort a := by
  apply strict_sorted_unique out (sortSort a) (h.1.trans (sortSort_perm a).symm)
  · apply strict_of_distinct _ (sortOutput_ascending a out h)
    exact (h.1.map (fun g => g.position)).nodup_iff.2 hd
  · exact sortSort_strict a hd

theorem result_positions_nodup (resp : Option (List Token)) :
    (((searchGems resp).1.map Prod.snd).map (fun g => g.position)).Nodup := by
  cases resp with
  | none => simp [searchGems, GemMap.empty]
  | some ts =>
    have h := result_values_decreasing ts
    have h2 : (((loop initState ts).gems.map Prod.snd).map (fun g => g.position)).Pairwise
        (fun a b => b < a) := by
      rw [List.pairwise_map]
      exact h
    exact h2.imp (fun hab => ne_of_gt hab)

theorem listOrder_rangeOrder : RangeOrder listOrder := fun _ => List.Perm.refl _

theorem reverseOrder_rangeOrder : RangeOrder reverseOrder :=
  fun m => List.reverse_perm (m.map Prod.snd)

theorem sortSort_isSortOutput (a : List Gem) : IsSortOutput a (sortSort a) := by
  refine ⟨sortSort_perm a, ?_⟩
  intro i j hij
  have h := List.pairwise_iff_get.1 (sortSort_ascending a) i j hij
  cases hc : byPosition.Less (sortSort a) j i
  · rfl
  · have := (less_iff (sortSort a) j i).1 hc
    omega

theorem searchCommand_stdout (fetch : String → Option (List Token))
    (order : GemMap → List Gem) (term : String) :
    (searchCommand fetch order term).stdout
      = (searchGems (fetch (rubygemsSearch ++ term))).2
        ++ foundLine (order (searchGems (fetch (rubygemsSearch ++ term))).1).length
          :: (sortSort (order (searchGems (fetch (rubygemsSearch ++ term))).1)).map
              recordLine := rfl

/-- C13: the record lines that `searchCommand` prints after the summary are
those of the list obtained from the collection by `sort.Sort`; that list is a
rearrangement of the records of the collection in strictly ascending position,
the output is the same for every order in which the map is traversed and for
every sorting procedure that meets the contract of `sort.Sort`; and
`Less(i, j)` holds exactly when the position of element `i` is below that of
element `j`. -/
theorem printed_in_position_order (fetch : String → Option (List Token))
    (order : GemMap → List Gem) (horder : RangeOrder order) (term : String) :
    (searchCommand fetch order term).stdout
      = (searchGems (fetch (rubygemsSearch ++ term))).2
        ++ foundLine (GemMap.size (searchGems (fetch (rubygemsSearch ++ term))).1)
          :: (sortSort (order (searchGems (fetch (rubygemsSearch ++ term))).1)).map
              recordLine ∧
    (sortSort (order (searchGems (fetch (rubygemsSearch ++ term))).1)).Perm
      ((searchGems (fetch (rubygemsSearch ++ term))).1.map Prod.snd) ∧
    (sortSort (order (searchGems (fetch (rubygemsSearch ++ term))).1)).Pairwise
      (fun x y => x.position < y.position) ∧
    (∀ order2 : GemMap → List Gem, RangeOrder order2 →
      (searchCommand fetch order2 term).stdout = (searchCommand fetch order term).stdout) ∧
    IsSortOutput (order (searchGems (fetch (rubygemsSearch ++ term))).1)
      (sortSort (order (searchGems (fetch (rubygemsSearch ++ term))).1)) ∧
    (∀ out : List Gem,
      IsSortOutput (order (searchGems (fetch (rubygemsSearch ++ term))).1) out →
      out = sortSort (order (searchGems (fetch (rubygemsSearch ++ term))).1)) ∧
    (∀ (a : List Gem) (i j : Fin a.length),
      byPosition.Less a i j = true ↔ (a.get i).position < (a.get j).position) := by
  have hnd : ∀ o : GemMap → List Gem, RangeOrder o →
      ((o (searchGems (fetch (rubygemsSearch ++ term))).1).map
        (fun g => g.position)).Nodup := fun o ho =>
    ((ho (searchGems (fetch (rubygemsSearch ++ term))).1).map
      (fun g => g.position)).nodup_iff.2
      (result_positions_nodup (fetch (rubygemsSearch ++ term)))
  have hlen : ∀ o : GemMap → List Gem, RangeOrder o →
      (o (searchGems (fetch (rubygemsSearch ++ term))).1).length
        = GemMap.size (searchGems (fetch (rubygemsSearch ++ term))).1 := by
    intro o ho
    rw [(ho _).length_eq, List.length_map]
    rfl
  have hsame : ∀ o : GemMap → List Gem, RangeOrder o →
      sortSort (o (searchGems (fetch (rubygemsSearch ++ term))).1)
        = sortSort (order (searchGems (fetch (rubygemsSearch ++ term))).1) := by
    intro o ho
    apply strict_sorted_unique _ _ _ (sortSort_strict _ (hnd o ho))
      (sortSort_strict _ (hnd order horder))
    exact ((sortSort_perm _).trans (ho _)).trans
      ((sortSort_perm _).trans (horder _)).symm
  refine ⟨?_, (sortSort_perm _).trans (horder _), sortSort_strict _ (hnd order horder),
    ?_, sortSort_isSortOutput _, ?_, less_iff⟩
  · rw [searchCommand_stdout, hlen order horder]
  · intro order2 h2
    rw [searchCommand_stdout, searchCommand_stdout, hsame order2 h2, hlen order2 h2,
      hlen order horder]
  · intro out hout
    exact sortOutput_unique _ out (hnd order horder) hout

/-- C13 at a concrete run with three records, the map being traversed in the
order `baz`, `bar`, `foo`: the lines are printed in the order `foo`, `bar`,
`baz`, as they are when the map is traversed the other way round. -/
theorem printed_in_position_order_witness :
    RangeOrder listOrder ∧
    (listOrder (searchGems (some (threeGroups.flatten ++ [divGem]))).1).map
        (fun g => g.name) = ["baz", "bar", "foo"] ∧
    (searchCommand (fun _ => some (threeGroups.flatten ++ [divGem])) listOrder "q").stdout
      = ["Found 3 gems:", "foo 1.0 http://rubygems.org/gems/foo ",
         "bar  http://rubygems.org/gems/bar ", "baz 0.3  "] ∧
    (searchCommand (fun _ => some (threeGroups.flatten ++ [divGem])) reverseOrder "q").stdout
      = (searchCommand (fun _ => some (threeGroups.flatten ++ [divGem])) listOrder "q").stdout := by
  refine ⟨listOrder_rangeOrder, by decide, ?_, ?_⟩
  · rw [(printed_in_position_order (fun _ => some (threeGroups.flatten ++ [divGem]))
      listOrder listOrder_rangeOrder "q").1]
    decide
  · exact (printed_in_position_order (fun _ => some (threeGroups.flatten ++ [divGem]))
      listOrder listOrder_rangeOrder "q").2.2.2.1 reverseOrder reverseOrder_rangeOrder

/-! ## C15: the format of the output -/

/-- C15: `searchCommand` prints, after whatever `searchGems` printed, the
summary `Found N gems:` for a collection of N records and then N record lines,
one for each record of the collection, each made of the name, a blank, the
version, a blank, the url and a blank; the description does not enter a line. -/
theorem output_format (fetch : String → Option (List Token))
    (order : GemMap → List Gem) (horder : RangeOrder order) (term : String) :
    (searchCommand fetch order term).stdout
      = (searchGems (fetch (rubygemsSearch ++ term))).2
        ++ ("Found " ++ toString (GemMap.size (searchGems (fetch (rubygemsSearch ++ term))).1)
              ++ " gems:")
          :: (sortSort (order (searchGems (fetch (rubygemsSearch ++ term))).1)).map
              (fun g => g.name ++ " " ++ g.version ++ " " ++ g.url ++ " ") ∧
    ((sortSort (order (searchGems (fetch (rubygemsSearch ++ term))).1)).map
        (fun g => g.name ++ " " ++ g.version ++ " " ++ g.url ++ " ")).length
      = GemMap.size (searchGems (fetch (rubygemsSearch ++ term))).1 ∧
    (sortSort (order (searchGems (fetch (rubygemsSearch ++ term))).1)).Perm
      ((searchGems (fetch (rubygemsSearch ++ term))).1.map Prod.snd) ∧
    (∀ ts : List Token, (searchGems (some ts)).2 = []) ∧
    (∀ (g : Gem) (d : String), recordLine { g with description := d } = recordLine g) := by
  have hperm := (sortSort_perm (order (searchGems (fetch (rubygemsSearch ++ term))).1)).trans
    (horder (searchGems (fetch (rubygemsSearch ++ term))).1)
  have hlen : (order (searchGems (fetch (rubygemsSearch ++ term))).1).length
      = GemMap.size (searchGems (fetch (rubygemsSearch ++ term))).1 := by
    rw [(horder _).length_eq, List.length_map]
    rfl
  refine ⟨?_, ?_, hperm, fun ts => rfl, fun g d => rfl⟩
  · simp only [searchCommand, byPosition.Len, foundLine, hlen]
    rfl
  · rw [List.length_map, hperm.length_eq, List.length_map]
    rfl

/-- C15 at a concrete run: three records, printed after the summary line. -/
theorem output_format_witness :
    RangeOrder reverseOrder ∧
    (searchCommand (fun _ => some (threeGroups.flatten ++ [divGem])) reverseOrder "x").stdout
      = ["Found 3 gems:", "foo 1.0 http://rubygems.org/gems/foo ",
         "bar  http://rubygems.org/gems/bar ", "baz 0.3  "] := by
  refine ⟨reverseOrder_rangeOrder, ?_⟩
  rw [(output_format (fun _ => some (threeGroups.flatten ++ [divGem])) reverseOrder
    reverseOrder_rangeOrder "x").1]
  decide

/-! ## C14: the end-to-end scenario -/

theorem scenario_result :
    searchGems (some scenarioStream)
      = ([("foo", { name := "foo", url := "http://rubygems.org/gems/foo", version := "1.0",
                    description := "", position := 1 })], []) := by
  decide

/-- C14: for the stream of item `foo` 1.0 with href `/gems/foo` followed by
item `bar` 2.0 with href `/gems/bar` and the end of the stream, the output is
`Found 1 gems:` and the single record line of `foo` with the url
`http://rubygems.org/gems/foo`; `bar` is not printed.  The exit status is 0. -/
theorem scenario_output (fetch : String → Option (List Token))
    (order : GemMap → List Gem) (horder : RangeOrder order) (term : String)
    (hfetch : fetch (rubygemsSearch ++ term) = some scenarioStream) :
    (searchCommand fetch order term).stdout
      = ["Found 1 gems:", "foo 1.0 http://rubygems.org/gems/foo "] ∧
    render (searchCommand fetch order term).stdout
      = "Found 1 gems:\nfoo 1.0 http://rubygems.org/gems/foo \n" ∧
    (searchCommand fetch order term).exitCode = 0 ∧
    (main "sg" ["search", term] fetch order).stdout
      = ["Found 1 gems:", "foo 1.0 http://rubygems.org/gems/foo "] ∧
    GemMap.find "bar" (searchGems (some scenarioStream)).1 = none := by
  have ho : order (searchGems (some scenarioStream)).1
      = [{ name := "foo", url := "http://rubygems.org/gems/foo", version := "1.0",
           description := "", position := 1 }] := by
    have h := horder (searchGems (some scenarioStream)).1
    rw [scenario_result] at h ⊢
    exact List.perm_singleton.1 h
  have hout : (searchCommand fetch order term).stdout
      = ["Found 1 gems:", "foo 1.0 http://rubygems.org/gems/foo "] := by
    simp only [searchCommand, hfetch, ho]
    decide
  have hmain : main "sg" ["search", term] fetch order = searchCommand fetch order term := by
    have h1 : "+".intercalate (["search", term].drop 1) = term := by
      simp [String.intercalate, String.intercalate.go]
    simp only [main, h1]
    simp
  refine ⟨hout, ?_, rfl, ?_, by decide⟩
  · rw [hout]
    decide
  · rw [hmain, hout]

/-- C14 on a network that serves the scenario page, with the map traversed in
reverse. -/
theorem scenario_output_witness :
    RangeOrder reverseOrder ∧
    scenarioFetch (rubygemsSearch ++ "foo") = some scenarioStream ∧
    (searchCommand scenarioFetch reverseOrder "foo").stdout
      = ["Found 1 gems:", "foo 1.0 http://rubygems.org/gems/foo "] :=
  ⟨reverseOrder_rangeOrder, rfl,
   (scenario_output scenarioFetch reverseOrder reverseOrder_rangeOrder "foo" rfl).1⟩

/-! ## C17: a failed fetch -/

/-- C17: when the fetch fails, `searchGems` prints the diagnostic line and
returns the empty collection, `searchCommand` prints `Found 0 gems:` without
any record line and the exit status is 0; the exit status of the search path is
0 for every outcome of the fetch and every token stream. -/
theorem fetch_failure_output (fetch : String → Option (List Token))
    (order : GemMap → List Gem) (horder : RangeOrder order) (term : String)
    (hfail : fetch (rubygemsSearch ++ term) = none) :
    searchGems none = ([], ["ERROR: Failed to reach RubyGems"]) ∧
    (searchCommand fetch order term).stdout
      = ["ERROR: Failed to reach RubyGems", "Found 0 gems:"] ∧
    (searchCommand fetch order term).exitCode = 0 ∧
    (∀ (f : String → Option (List Token)) (o : GemMap → List Gem) (t : String),
      (searchCommand f o t).exitCode = 0) ∧
    (∀ (prog : String) (args : List String) (f : String → Option (List Token))
        (o : GemMap → List Gem),
      2 ≤ args.length → args.getD 0 "" = "search" → (main prog args f o).exitCode = 0) := by
  have ho : order (searchGems none).1 = [] := by
    have h := horder (searchGems none).1
    exact List.perm_nil.1 h
  refine ⟨rfl, ?_, rfl, fun f o t => rfl, ?_⟩
  · simp only [searchCommand, hfail, ho]
    decide
  · intro prog args f o hlen hsearch
    have h2 : ¬ args.length < 2 := by omega
    simp only [main, h2, if_false, hsearch, if_true]
    rfl

/-- C17 on a network where every request fails. -/
theorem fetch_failure_output_witness :
    RangeOrder listOrder ∧ failingFetch (rubygemsSearch ++ "rails") = none ∧
    main "sg" ["search", "rails"] failingFetch listOrder
      = { stdout := ["ERROR: Failed to reach RubyGems", "Found 0 gems:"], exitCode := 0,
          requests := ["http://rubygems.org/search?utf8=%E2%9C%93&query=rails"] } ∧
    (searchCommand failingFetch listOrder "rails").stdout
      = ["ERROR: Failed to reach RubyGems", "Found 0 gems:"] :=
  ⟨listOrder_rangeOrder, rfl, by decide,
   (fetch_failure_output failingFetch listOrder listOrder_rangeOrder "rails" rfl).2.1⟩

/-! ## C16: the command line -/

theorem main_few_args (prog : String) (args : List String)
    (fetch : String → Option (List Token)) (order : GemMap → List Gem)
    (h : args.length < 2) :
    main prog args fetch order
      = { stdout := ["Usage of " ++ prog ++ ":", "    sg search gem"], exitCode := 1,
          requests := [] } := by
  simp [main, h, usageLines]

theorem main_request_only_for_search (prog : String) (args : List String)
    (fetch : String → Option (List Token)) (order : GemMap → List Gem)
    (h : (main prog args fetch order).requests ≠ []) :
    2 ≤ args.length ∧ args.getD 0 "" = "search" := by
  unfold main at h
  by_cases h1 : args.length < 2
  · rw [if_pos h1] at h
    exact absurd rfl h
  · by_cases h2 : args.getD 0 "" = "search"
    · exact ⟨by omega, h2⟩
    · rw [if_neg h1, if_neg h2] at h
      exact absurd rfl h

/-- C16 fails for a first argument other than `search`: `sg install rails`
prints nothing and ends with status 0, whereas `sg search` alone prints the
usage text and ends with status 1.  Neither makes a request. -/
theorem unknown_subcommand_is_silent :
    (∀ (fetch : String → Option (List Token)) (order : GemMap → List Gem),
      main "sg" ["install", "rails"] fetch order
        = { stdout := [], exitCode := 0, requests := [] }) ∧
    (∀ (fetch : String → Option (List Token)) (order : GemMap → List Gem),
      main "sg" ["search"] fetch order
        = { stdout := ["Usage of sg:", "    sg search gem"], exitCode := 1,
            requests := [] }) := by
  constructor
  · intro fetch order
    simp [main]
  · intro fetch order
    rw [main_few_args "sg" ["search"] fetch order (by decide)]
    decide

/-! ## C11: stored records are never written -/

theorem heapSet_same (h : Nat → Gem) (a : Nat) (g : Gem) : heapSet h a g a = g := by
  simp [heapSet]

theorem heapSet_other (h : Nat → Gem) (a x : Nat) (g : Gem) (hx : x ≠ a) :
    heapSet h a g x = h x := by
  simp [heapSet, hx]

theorem map_heap_congr (gems : PtrMap) (h1 h2 : Nat → Gem)
    (h : ∀ e ∈ gems, h1 e.2 = h2 e.2) :
    gems.map (fun e => (e.1, h1 e.2)) = gems.map (fun e => (e.1, h2 e.2)) :=
  List.map_congr_left (fun e he => by rw [h e he])

theorem memOnText_frame (s : Mem) (t : Token) :
    (memOnText s t).gems = s.gems ∧ (memOnText s t).next = s.next ∧
    (memOnText s t).q = s.q ∧ (memOnText s t).pos = s.pos ∧
    ∀ a, a ≠ s.q → (memOnText s t).heap a = s.heap a := by
  rcases s with ⟨heap, next, gems, pos, q, n, v, d⟩
  cases n <;> cases v <;> cases d <;>
    exact ⟨by simp [memOnText], by simp [memOnText], by simp [memOnText],
      by simp [memOnText], fun a ha => by simp [memOnText, heapSet, ha]⟩

theorem view_memOnText (s : Mem) (t : Token) (hinv : MemInv s) :
    view (memOnText s t) = onText (view s) t := by
  have hg : ∀ h2 : Nat → Gem, (∀ a, a ≠ s.q → h2 a = s.heap a) →
      s.gems.map (fun e => (e.1, h2 e.2)) = s.gems.map (fun e => (e.1, s.heap e.2)) :=
    fun h2 hh => map_heap_congr s.gems h2 s.heap (fun e he => hh e.2 (hinv.2 e he).2)
  rcases s with ⟨heap, next, gems, pos, q, n, v, d⟩
  cases n <;> cases v <;> cases d <;>
    (simp only [memOnText, onText, view, Bool.false_eq_true, if_false, if_true, heapSet_same]
     try (congr 1
          apply hg
          intro a ha
          simp [heapSet, ha]))

theorem store_view (gems : PtrMap) (heap H : Nat → Gem) (k : String) (q : Nat) (g : Gem)
    (hq : H q = g) (hrest : ∀ e ∈ gems, H e.2 = heap e.2) :
    (PtrMap.store k q gems).map (fun e => (e.1, H e.2))
      = GemMap.store k g (gems.map (fun e => (e.1, heap e.2))) := by
  simp only [PtrMap.store, GemMap.store, List.map_cons, hq, List.filter_map]
  congr 1
  apply List.map_congr_left
  intro e he
  rw [hrest e (List.mem_filter.1 he).1]

theorem view_memStoreGem (s : Mem) (t : Token) (hinv : MemInv s) :
    view (memStoreGem s t) = storeGem (view s) t ∧ MemInv (memStoreGem s t) := by
  by_cases hg : isGem t = true
  · by_cases hn : 0 < (s.heap s.q).name.length
    · have hqn : s.q ≠ s.next := Nat.ne_of_lt hinv.1
      have hH : heapSet (heapSet s.heap s.q { s.heap s.q with position := s.pos })
          s.next newGem s.q = { s.heap s.q with position := s.pos } := by
        rw [heapSet_other _ _ _ _ hqn, heapSet_same]
      have hrest : ∀ e ∈ s.gems,
          heapSet (heapSet s.heap s.q { s.heap s.q with position := s.pos })
            s.next newGem e.2 = s.heap e.2 := by
        intro e he
        rw [heapSet_other _ _ _ _ (Nat.ne_of_lt (hinv.2 e he).1),
          heapSet_other _ _ _ _ (hinv.2 e he).2]
      constructor
      · have hv : 0 < (view s).q.name.length := hn
        simp only [memStoreGem, storeGem, hg, hn, hv, if_true]
        simp only [view, heapSet_same]
        rw [store_view s.gems s.heap _ _ s.q _ hH hrest]
      · simp only [memStoreGem, hg, hn, if_true]
        refine ⟨Nat.lt_succ_self _, ?_⟩
        intro e he
        simp only [PtrMap.store, List.mem_cons, List.mem_filter] at he
        rcases he with h | h
        · rw [h]
          exact ⟨Nat.lt_succ_of_lt hinv.1, hqn⟩
        · exact ⟨Nat.lt_succ_of_lt (hinv.2 e h.1).1, Nat.ne_of_lt (hinv.2 e h.1).1⟩
    · have hv : ¬ 0 < (view s).q.name.length := hn
      simp only [memStoreGem, storeGem, hg, hn, hv, if_true, if_false]
      exact ⟨trivial, hinv⟩
  · have hg2 : isGem t = false := by simpa using hg
    simp only [memStoreGem, storeGem, hg2, Bool.false_eq_true, if_false]
    exact ⟨trivial, hinv⟩

theorem view_memSetUrl (s : Mem) (t : Token) (hinv : MemInv s) :
    view (memSetUrl s t) = setUrl (view s) t ∧ MemInv (memSetUrl s t) := by
  by_cases ha : isGemAnchor t = true
  · constructor
    · simp only [memSetUrl, setUrl, ha, if_true]
      simp only [view, heapSet_same]
      rw [map_heap_congr s.gems _ s.heap
        (fun e he => heapSet_other _ _ _ _ (hinv.2 e he).2)]
    · simp only [memSetUrl, ha, if_true]
      exact hinv
  · have ha2 : isGemAnchor t = false := by simpa using ha
    simp only [memSetUrl, setUrl, ha2, Bool.false_eq_true, if_false]
    exact ⟨trivial, hinv⟩

theorem view_memStep (s : Mem) (t : Token) (hinv : MemInv s) :
    view (memStep s t) = step (view s) t ∧ MemInv (memStep s t) := by
  unfold memStep step
  split
  · obtain ⟨h1, i1⟩ := view_memStoreGem s t hinv
    obtain ⟨h2, i2⟩ := view_memSetUrl (memStoreGem s t) t i1
    constructor
    · simp only [memOnStartTag, onStartTag, ← h1, ← h2]
      rfl
    · exact i2
  · refine ⟨view_memOnText s t hinv, ?_⟩
    obtain ⟨f1, f2, f3, _, _⟩ := memOnText_frame s t
    unfold MemInv
    rw [f1, f2, f3]
    exact hinv
  · exact ⟨rfl, hinv⟩

theorem memInit_inv : MemInv memInit :=
  ⟨Nat.zero_lt_one, fun e he => by simp [memInit] at he⟩

theorem view_memLoop (ts : List Token) (s : Mem) (hinv : MemInv s) :
    view (memLoop s ts) = loop (view s) ts ∧ MemInv (memLoop s ts) := by
  induction ts generalizing s with
  | nil => exact ⟨rfl, hinv⟩
  | cons t ts ih =>
    simp only [memLoop, loop]
    split
    · exact ⟨rfl, hinv⟩
    · obtain ⟨h1, i1⟩ := view_memStep s t hinv
      rw [← h1]
      exact ih _ i1

/-- The map that `searchGems` returns, read through its pointers, is the map
computed by `loop`. -/
theorem searchGems_refines (ts : List Token) :
    (view (memLoop memInit ts)).gems = (searchGems (some ts)).1 := by
  rw [(view_memLoop ts memInit memInit_inv).1]
  rfl

theorem memSetUrl_frame (s : Mem) (t : Token) :
    (memSetUrl s t).gems = s.gems ∧ (memSetUrl s t).q = s.q ∧
    ∀ a, a ≠ s.q → (memSetUrl s t).heap a = s.heap a := by
  unfold memSetUrl
  split
  · exact ⟨rfl, rfl, fun a ha => heapSet_other _ _ _ _ ha⟩
  · exact ⟨rfl, rfl, fun a _ => rfl⟩

theorem memStoreGem_cases (s : Mem) (t : Token) :
    memStoreGem s t = s ∨
    (isGem t = true ∧
      (memStoreGem s t).gems = PtrMap.store (s.heap s.q).name s.q s.gems ∧
      (memStoreGem s t).q = s.next ∧
      ∀ a, a ≠ s.q → a ≠ s.next → (memStoreGem s t).heap a = s.heap a) := by
  unfold memStoreGem
  by_cases hg : isGem t = true
  · by_cases hn : 0 < (s.heap s.q).name.length
    · right
      simp only [hg, hn, if_true]
      refine ⟨trivial, trivial, trivial, fun a h1 h2 => ?_⟩
      rw [heapSet_other _ _ _ _ h2, heapSet_other _ _ _ _ h1]
    · left
      simp [hg, hn]
  · left
    simp [hg]

theorem memOnStartTag_frame (s : Mem) (t : Token) :
    (∀ a, a ≠ s.q → a ≠ s.next → (memOnStartTag s t).heap a = s.heap a) ∧
    ((memOnStartTag s t).gems = s.gems ∨
      (isGem t = true ∧
        (memOnStartTag s t).gems = PtrMap.store (s.heap s.q).name s.q s.gems)) := by
  obtain ⟨u1, u2, u3⟩ := memSetUrl_frame (memStoreGem s t) t
  have hheap : (memOnStartTag s t).heap = (memSetUrl (memStoreGem s t) t).heap := rfl
  have hgems : (memOnStartTag s t).gems = (memSetUrl (memStoreGem s t) t).gems := rfl
  rw [hheap, hgems, u1]
  rcases memStoreGem_cases s t with h | ⟨hg, h1, h2, h3⟩
  · rw [h] at u3 ⊢
    exact ⟨fun a ha _ => u3 a ha, Or.inl rfl⟩
  · refine ⟨fun a ha hn => ?_, Or.inr ⟨hg, h1⟩⟩
    rw [u3 a (by rw [h2]; exact hn), h3 a ha hn]

/-- C11: a text token changes neither the map nor the counter, and it writes to
the current shell only; no token whatever writes to a record that is bound in
the map, and an entry of the map either stays or gives way, at a boundary
marker, to the shell of the same name that is stored then.  The loop on values
is the image of the loop on pointers, where a text token leaves the collection,
with every field of every record, as it was. -/
theorem stored_records_never_written (s : Mem) (hinv : MemInv s) (t : Token) :
    (t.Typ = .TextToken →
      (memStep s t).gems = s.gems ∧ (memStep s t).pos = s.pos ∧
      (∀ a, a ≠ s.q → (memStep s t).heap a = s.heap a) ∧
      (view (memStep s t)).gems = (view s).gems) ∧
    (∀ e ∈ s.gems, (memStep s t).heap e.2 = s.heap e.2) ∧
    (∀ e ∈ s.gems, e ∈ (memStep s t).gems ∨
      (isBoundary t = true ∧ e.1 = (s.heap s.q).name ∧
        (memStep s t).gems = PtrMap.store e.1 s.q s.gems)) ∧
    view (memStep s t) = step (view s) t ∧ MemInv (memStep s t) ∧
    (∀ v : State, t.Typ = .TextToken → (step v t).gems = v.gems ∧ (step v t).pos = v.pos) := by
  obtain ⟨hview, hinv2⟩ := view_memStep s t hinv
  have hval : ∀ v : State, t.Typ = .TextToken →
      (step v t).gems = v.gems ∧ (step v t).pos = v.pos := by
    intro v hx
    rw [step_text v t hx]
    exact ⟨(onText_frame v t).1, (onText_frame v t).2.1⟩
  refine ⟨?_, ?_, ?_, hview, hinv2, hval⟩
  · intro hx
    have hm : memStep s t = memOnText s t := by simp [memStep, hx]
    obtain ⟨f1, _, _, f4, f5⟩ := memOnText_frame s t
    rw [hm]
    refine ⟨f1, f4, f5, ?_⟩
    rw [← hm, hview]
    exact (hval (view s) hx).1
  · intro e he
    obtain ⟨hlt, hne⟩ := hinv.2 e he
    by_cases hty : t.Typ = .StartTagToken
    · have hm : memStep s t = memOnStartTag s t := by simp [memStep, hty]
      rw [hm]
      exact (memOnStartTag_frame s t).1 e.2 hne (Nat.ne_of_lt hlt)
    · by_cases hx : t.Typ = .TextToken
      · have hm : memStep s t = memOnText s t := by simp [memStep, hx]
        rw [hm]
        exact (memOnText_frame s t).2.2.2.2 e.2 hne
      · have hm : memStep s t = s := by
          unfold memStep
          split <;> simp_all
        rw [hm]
  · intro e he
    by_cases hty : t.Typ = .StartTagToken
    · have hm : memStep s t = memOnStartTag s t := by simp [memStep, hty]
      rw [hm]
      rcases (memOnStartTag_frame s t).2 with h | ⟨hg, h⟩
      · left
        rw [h]
        exact he
      · by_cases hk : e.1 = (s.heap s.q).name
        · right
          refine ⟨(isBoundary_iff t).2 ⟨hty, hg⟩, hk, ?_⟩
          rw [h, hk]
        · left
          rw [h]
          simp only [PtrMap.store, List.mem_cons, List.mem_filter]
          right
          exact ⟨he, by simpa using hk⟩
    · left
      by_cases hx : t.Typ = .TextToken
      · have hm : memStep s t = memOnText s t := by simp [memStep, hx]
        rw [hm, (memOnText_frame s t).1]
        exact he
      · have hm : memStep s t = s := by
          unfold memStep
          split <;> simp_all
        rw [hm]
        exact he

/-- C11 at a concrete state: after `foo` is stored at address 0, a name text
for the next shell changes the record at address 1 and leaves `foo` alone. -/
theorem stored_records_never_written_witness :
    MemInv (memLoop memInit [anchorFoo, nameMark, textTok "foo", divGem, nameMark]) ∧
    (textTok "bar").Typ = .TextToken ∧
    (memLoop memInit [anchorFoo, nameMark, textTok "foo", divGem, nameMark]).gems
      = [("foo", 0)] ∧
    (memStep (memLoop memInit [anchorFoo, nameMark, textTok "foo", divGem, nameMark])
        (textTok "bar")).heap 0
      = (memLoop memInit [anchorFoo, nameMark, textTok "foo", divGem, nameMark]).heap 0 ∧
    (memStep (memLoop memInit [anchorFoo, nameMark, textTok "foo", divGem, nameMark])
        (textTok "bar")).gems = [("foo", 0)] := by
  have hinv := (view_memLoop [anchorFoo, nameMark, textTok "foo", divGem, nameMark]
    memInit memInit_inv).2
  have hg : (memLoop memInit [anchorFoo, nameMark, textTok "foo", divGem, nameMark]).gems
      = [("foo", 0)] := by decide
  have h := stored_records_never_written _ hinv (textTok "bar")
  refine ⟨hinv, rfl, hg, ?_, ?_⟩
  · exact h.2.1 ("foo", 0) (by rw [hg]; exact List.mem_singleton.2 rfl)
  · rw [(h.1 rfl).1, hg]

end Sg
